import Mathlib

/-!
Verification development for the POS-analytics core: the canonical entity
resolver (`src/lib/itemNormalizer.js`) and the intent-to-query compiler and
result transformer (`queryBuilder.ts`).  Strings are modelled as `List Char`
(JS strings are sequences of UTF-16 code units; all inputs relevant to the
claims are plain characters).  Every definition is a direct translation of
the corresponding source function.
-/

namespace Clave

/-! ### Character predicates (JS regular-expression character classes) -/

/-- The JS `\s` (and `String.prototype.trim`) whitespace set, by code point:
space, tab, LF, VT, FF, CR, NBSP, U+1680, U+2000-U+200A, LS, PS, U+202F,
U+205F, U+3000 and the BOM U+FEFF. -/
def isJsWs (c : Char) : Bool :=
  c.toNat = 32 || c.toNat = 9 || c.toNat = 10 || c.toNat = 11 || c.toNat = 12 ||
  c.toNat = 13 || c.toNat = 0xa0 || c.toNat = 0x1680 ||
  (0x2000 ≤ c.toNat && c.toNat ≤ 0x200a) || c.toNat = 0x2028 || c.toNat = 0x2029 ||
  c.toNat = 0x202f || c.toNat = 0x205f || c.toNat = 0x3000 || c.toNat = 0xfeff

/-- The JS `\w` word-character set `[A-Za-z0-9_]` (used by the `\b` boundary
assertion), by code point. -/
def isWordChar (c : Char) : Bool :=
  (97 ≤ c.toNat && c.toNat ≤ 122) || (65 ≤ c.toNat && c.toNat ≤ 90) ||
  (48 ≤ c.toNat && c.toNat ≤ 57) || c.toNat = 95

/-- The JS `\d` digit set `[0-9]`, by code point. -/
def isDigitChar (c : Char) : Bool :=
  48 ≤ c.toNat && c.toNat ≤ 57

/-- Characters kept by the filter `replace(/[^a-z0-9\s]/g, '')`, by code
point: `a`-`z`, `0`-`9` and the `\s` set. -/
def keepChar (c : Char) : Bool :=
  (97 ≤ c.toNat && c.toNat ≤ 122) || (48 ≤ c.toNat && c.toNat ≤ 57) || isJsWs c

/-- Code points removed by `replace(/[\u{1F300}-\u{1FAFF}]/gu, '')`. -/
def isEmojiChar (c : Char) : Bool :=
  0x1F300 ≤ c.toNat && c.toNat ≤ 0x1FAFF

/-- The JS `\b` assertion between the end of a match and the rest of the
string: it holds at end of input or before a non-word character. -/
def wordBoundaryAfter : List Char → Bool
  | [] => true
  | c :: _ => !(isWordChar c)

/-! ### `normalizeText` (itemNormalizer.js lines 14-25)

The pipeline is: lowercase, NFKD, strip emoji, strip `[^a-z0-9\s]`, remove
`/\s*pcs?\b/g`, remove `/\b\d+\b/g`, collapse `/\s+/g` to one space, trim.
`String.prototype.normalize("NFKD")` is kept as a parameter `nfkd` of the
embedding: the Unicode decomposition tables are outside its scope.  Real NFKD
is the identity on ASCII strings, so theorems either hold for every `nfkd`
that is the identity on the residual character set `[a-z0-9 ]`, or are
instantiated at pure-ASCII inputs with `nfkd := fun l => l`. -/

/-- Match attempt for `/\s*pcs?\b/` once the (maximal) whitespace prefix has
been consumed; `k` is the length of that prefix.  The `s?` is greedy: on
`"pcs"` followed by a word character neither alternative matches, because the
fallback `"pc"` is then followed by the word character `s`. -/
def pcsTail (k : Nat) (l : List Char) : Option Nat :=
  match l with
  | 'p' :: 'c' :: rest =>
    match rest with
    | 's' :: rest2 => if wordBoundaryAfter rest2 then some (k + 3) else none
    | _ => if wordBoundaryAfter rest then some (k + 2) else none
  | _ => none

/-- Length of the match of `/\s*pcs?\b/` anchored at the head of `l`, if any.
`\s*` is forced to consume the whole whitespace run, since the character after
a shorter run is whitespace, not `p`. -/
def pcsAt (l : List Char) : Option Nat :=
  pcsTail (l.takeWhile isJsWs).length (l.drop (l.takeWhile isJsWs).length)

/-- Fuel-indexed scan for `replace(/\s*pcs?\b/g, '')`.  The fuel (always
at least the list length, which each step strictly decreases) makes the
recursion structural, so concrete instances compute inside the kernel; the
0-fuel branch is unreachable. -/
def stripPcsF : Nat → List Char → List Char
  | 0, _ => []
  | _ + 1, [] => []
  | f + 1, c :: rest =>
    match pcsAt (c :: rest) with
    | some n => stripPcsF f (rest.drop (n - 1))
    | none => c :: stripPcsF f rest

/-- `replace(/\s*pcs?\b/g, '')`: left-to-right scan, deleting each match
(its length is `n ≥ 2`) and continuing after it. -/
def stripPcs (l : List Char) : List Char := stripPcsF l.length l

/-- Match attempt for `/\b\d+\b/` anchored at the head of `l`.  `pb` records
whether a word boundary holds before the head (start of string, or the
previous character is a non-word character).  `\d+` is forced maximal: a
shorter run puts the following `\b` between two digits. -/
def numsAt (pb : Bool) (l : List Char) : Option Nat :=
  if pb then
    let k := (l.takeWhile isDigitChar).length
    if 0 < k && wordBoundaryAfter (l.drop k) then some k else none
  else none

/-- Fuel-indexed scan for `replace(/\b\d+\b/g, '')` (fuel as in
`stripPcsF`). -/
def stripNumsF : Nat → Bool → List Char → List Char
  | 0, _, _ => []
  | _ + 1, _, [] => []
  | f + 1, pb, c :: rest =>
    match numsAt pb (c :: rest) with
    | some n => stripNumsF f false (rest.drop (n - 1))
    | none => c :: stripNumsF f (!(isWordChar c)) rest

/-- `replace(/\b\d+\b/g, '')`: scan with the boundary state of the previous
original character (after deleting a match the previous character is its last
digit, a word character, so the state is `false`). -/
def stripNums (pb : Bool) (l : List Char) : List Char := stripNumsF l.length pb l

/-- Fuel-indexed scan for `replace(/\s+/g, ' ')` (fuel as in `stripPcsF`). -/
def collapseWsF : Nat → List Char → List Char
  | 0, _ => []
  | _ + 1, [] => []
  | f + 1, c :: rest =>
    if isJsWs c then ' ' :: collapseWsF f (rest.dropWhile isJsWs)
    else c :: collapseWsF f rest

/-- `replace(/\s+/g, ' ')`: each maximal whitespace run becomes one space. -/
def collapseWs (l : List Char) : List Char := collapseWsF l.length l

/-- Remove the maximal all-whitespace suffix (the right half of `trim()`). -/
def trimRight : List Char → List Char
  | [] => []
  | c :: rest =>
    let r := trimRight rest
    if r.isEmpty && isJsWs c then [] else c :: r

/-- `String.prototype.trim()`. -/
def jsTrim (l : List Char) : List Char :=
  trimRight (l.dropWhile isJsWs)

/-- The normalization pipeline applied to a (truthy) string, i.e. the body of
`normalizeText` after the falsy check. -/
def normalizeCore (nfkd : List Char → List Char) (s : List Char) : List Char :=
  jsTrim (collapseWs (stripNums true (stripPcs
    (((nfkd (s.map Char.toLower)).filter (fun c => !(isEmojiChar c))).filter keepChar))))

/-- `normalizeText(str)`: `null` (modelled `none`) on falsy input (the empty
string), otherwise the pipeline result. -/
def normalizeText (nfkd : List Char → List Char) (s : List Char) : Option (List Char) :=
  if s = [] then none else some (normalizeCore nfkd s)

/-! ### `similarity` (itemNormalizer.js lines 34-37) -/

/-- Fuel-indexed Levenshtein recursion (fuel at least the sum of lengths,
which each step strictly decreases; with fuel 0 both lists are empty and the
distance is 0). -/
def levF : Nat → List Char → List Char → Nat
  | 0, _, _ => 0
  | _ + 1, [], ys => ys.length
  | _ + 1, x :: xs, [] => (x :: xs).length
  | f + 1, x :: xs, y :: ys =>
    if x = y then levF f xs ys
    else 1 + min (levF f xs ys) (min (levF f (x :: xs) ys) (levF f xs (y :: ys)))

/-- Levenshtein edit distance with unit costs (the `fast-levenshtein`
package's `get`). -/
def lev (a b : List Char) : Nat := levF (a.length + b.length) a b

/-- `similarity(a, b) = 1 - dist / Math.max(a.length, b.length)`.  When both
strings are empty the JS expression is `1 - 0/0 = NaN`; the embedding returns
`none` in that case and `some` of the rational score otherwise. -/
def similarity (a b : List Char) : Option ℚ :=
  if max a.length b.length = 0 then none
  else some (1 - (lev a b : ℚ) / ((max a.length b.length : ℕ) : ℚ))

/-! ### Query intent model (`queryIntentSchema.ts`) -/

/-- `metric` enumeration; validation rejects anything else before compilation,
and `buildQueryPlan` throws on an unknown metric, so the embedding uses the
closed type. -/
inductive Metric
  | revenue | orders | items_sold | per_item_revenue
deriving DecidableEq, Repr

/-- `groupBy` dimension enumeration. -/
inductive Dim
  | location | product | category | date | hour | fulfillment_method | provider
deriving DecidableEq, Repr

/-- `filters.date_range`: two `YYYY-MM-DD` strings. -/
structure DateRange where
  startDate : String
  endDate : String
deriving DecidableEq, Repr

/-- The `filters` object.  A missing key is `none`; note that a *present but
empty* array is still truthy in JS, which matters for the join conditions
(`filters.locations || ...`) versus the where conditions
(`filters.locations?.length`). -/
structure Filters where
  date_range : Option DateRange := none
  locations : Option (List String) := none
  fulfillmentMethods : Option (List String) := none
  categories : Option (List String) := none
  products : Option (List String) := none
  providers : Option (List String) := none
deriving DecidableEq, Repr

inductive SortBy
  | value | count | name | date
deriving DecidableEq, Repr

inductive SortOrder
  | asc | desc
deriving DecidableEq, Repr

/-- A validated `QueryIntent`. -/
structure QueryIntent where
  metric : Metric
  groupBy : List Dim
  filters : Filters
  limit : Option Nat := none
  sortBy : Option SortBy := none
  sortOrder : Option SortOrder := none
deriving DecidableEq, Repr

/-! ### Query plan (`buildQueryPlan`, queryBuilder.ts lines 58-289) -/

/-- The tables of the normalized schema. -/
inductive Table
  | orders | orderItems | canonicalItems | canonicalCategories
deriving DecidableEq, Repr

inductive JoinKind
  | inner | left
deriving DecidableEq, Repr

structure Join where
  kind : JoinKind
  table : Table
deriving DecidableEq, Repr

/-- The SQL expressions that occur in `buildQueryPlan`, one constructor per
distinct expression in the source. -/
inductive Expr
  | sumOrdersTotal        -- sum(orders.total)
  | countOrderId          -- count(orders.order_id)
  | sumQuantity           -- sum(order_items.quantity)
  | sumUnitPriceTimesQty  -- sum(order_items.unit_price * order_items.quantity)
  | storeId               -- orders.store_id
  | canonicalItemName     -- canonical_items.canonical_name
  | canonicalCategoryName -- canonical_categories.canonical_name
  | dateDay               -- date(orders.created_at)
  | dateTruncHour         -- date_trunc('hour', orders.created_at)
  | fulfillmentMethod     -- orders.fulfillment_method
  | provider              -- orders.provider
  | valueIdent            -- sql`value`
  | countStar             -- COUNT(*)
deriving DecidableEq, Repr

/-- Where-clause conditions.  `dateRange lo hi` is the conjunction
`gte(orders.created_at, lo) AND lte(orders.created_at, hi)` with both bounds
in milliseconds since the Unix epoch (UTC), as produced by the JS `Date`
arithmetic; `inList` is drizzle's `inArray`. -/
inductive Cond
  | dateRange (lo hi : Int)
  | inList (e : Expr) (vs : List String)
deriving DecidableEq, Repr

/-- A compiled plan: the drizzle query object, with each builder call
recorded in its field. -/
structure QueryPlan where
  fromTable : Table
  selectShape : List (String × Expr)
  joins : List Join
  whereConds : List Cond
  groupByCols : List Expr
  orderBy : Option (Expr × SortOrder)
  limit : Option Nat
deriving DecidableEq, Repr

/-- Days from the Unix epoch of a proleptic-Gregorian civil date (the
arithmetic performed by the JS `Date` UTC parser for `YYYY-MM-DD`). -/
def daysFromCivil (y m d : Int) : Int :=
  let y2 := if m ≤ 2 then y - 1 else y
  let era := (if 0 ≤ y2 then y2 else y2 - 399) / 400
  let yoe := y2 - era * 400
  let doy := (153 * (if 2 < m then m - 3 else m + 9) + 2) / 5 + d - 1
  let doe := yoe * 365 + yoe / 4 - yoe / 100 + doy
  era * 146097 + doe - 719468

/-- Milliseconds since the epoch of a UTC instant. -/
def utcMs (y m d h mi s ms : Int) : Int :=
  daysFromCivil y m d * 86400000 + h * 3600000 + mi * 60000 + s * 1000 + ms

/-- Digit value of an ASCII digit character. -/
def digitVal (c : Char) : Int := (c.toNat : Int) - 48

/-- `new Date("YYYY-MM-DD")` (a date-only string is parsed as UTC midnight).
The schema's regex has already validated the shape; any other shape is mapped
to 0 (never reached from a validated intent). -/
def parseDateUTC (str : String) : Int :=
  match str.data with
  | [a, b, c, d, '-', e, f, '-', g, h] =>
    utcMs (digitVal a * 1000 + digitVal b * 100 + digitVal c * 10 + digitVal d)
      (digitVal e * 10 + digitVal f) (digitVal g * 10 + digitVal h) 0 0 0 0
  | _ => 0

/-- `endOfDay.setUTCHours(23, 59, 59, 999)`: replace the time-of-day fields
of the instant with 23:59:59.999. -/
def setEndOfDayUTC (t : Int) : Int :=
  t - t.emod 86400000 + (23 * 3600000 + 59 * 60000 + 59 * 1000 + 999)

/-- The metric switch: aggregation expression and the `fromOrdersTable`
flag. -/
def metricInfo : Metric → Expr × Bool
  | .revenue => (.sumOrdersTotal, true)
  | .orders => (.countOrderId, true)
  | .items_sold => (.sumQuantity, false)
  | .per_item_revenue => (.sumUnitPriceTimesQty, false)

/-- JS object-key assignment `shape[k] = v`: overwrite in place if the key is
present, else append. -/
def setKey (l : List (String × Expr)) (k : String) (v : Expr) : List (String × Expr) :=
  if l.any (fun p => p.1 = k) then
    l.map (fun p => if p.1 = k then (k, v) else p)
  else l ++ [(k, v)]

/-- The `selectShape` object built from the metric and the groupBy list.
When both `date` and `hour` are grouped, the `hour` branch overwrites the
`created_at` key, exactly as in the source. -/
def selectShapeOf (m : Metric) (gb : List Dim) : List (String × Expr) :=
  let s0 := [("value", (metricInfo m).1)]
  let s1 := if gb.contains .location then setKey s0 "store_id" .storeId else s0
  let s2 := if gb.contains .product then setKey s1 "product" .canonicalItemName else s1
  let s3 := if gb.contains .category then setKey s2 "category" .canonicalCategoryName else s2
  let s4 := if gb.contains .date then setKey s3 "created_at" .dateDay else s3
  let s5 := if gb.contains .hour then setKey s4 "created_at" .dateTruncHour else s4
  let s6 :=
    if gb.contains .fulfillment_method then setKey s5 "fulfillment_method" .fulfillmentMethod
    else s5
  if gb.contains .provider then setKey s6 "provider" .provider else s6

/-- The `needOrdersJoin` condition for line-item metrics (truthiness of the
filter keys, so a present empty array counts). -/
def needOrdersJoin (gb : List Dim) (f : Filters) : Bool :=
  f.locations.isSome || f.fulfillmentMethods.isSome || f.date_range.isSome ||
  f.providers.isSome || gb.contains .location || gb.contains .fulfillment_method ||
  gb.contains .date || gb.contains .hour || gb.contains .provider

/-- The `needOrderItemsJoin` condition for order-level metrics. -/
def needOrderItemsJoin (gb : List Dim) (f : Filters) : Bool :=
  f.products.isSome || f.categories.isSome || gb.contains .product || gb.contains .category

/-- The joins section of `buildQueryPlan`, in source order. -/
def joinsOf (m : Metric) (gb : List Dim) (f : Filters) : List Join :=
  let j1 : List Join :=
    if m = .items_sold || m = .per_item_revenue then
      if needOrdersJoin gb f then [⟨.inner, .orders⟩] else []
    else
      if needOrderItemsJoin gb f then [⟨.left, .orderItems⟩] else []
  let j2 := j1 ++
    (if f.products.isSome || gb.contains .product then [⟨.left, .canonicalItems⟩] else [])
  j2 ++
    (if f.categories.isSome || gb.contains .category then [⟨.left, .canonicalCategories⟩] else [])

/-- The where section: `date_range` first, then the membership filters, each
guarded by `?.length` (present and non-empty). -/
def whereOf (f : Filters) : List Cond :=
  (match f.date_range with
   | some dr =>
     [Cond.dateRange (parseDateUTC dr.startDate) (setEndOfDayUTC (parseDateUTC dr.endDate))]
   | none => []) ++
  (match f.locations with
   | some (v :: vs) => [Cond.inList .storeId (v :: vs)]
   | _ => []) ++
  (match f.fulfillmentMethods with
   | some (v :: vs) => [Cond.inList .fulfillmentMethod (v :: vs)]
   | _ => []) ++
  (match f.providers with
   | some (v :: vs) => [Cond.inList .provider (v :: vs)]
   | _ => []) ++
  (match f.products with
   | some (v :: vs) => [Cond.inList .canonicalItemName (v :: vs)]
   | _ => []) ++
  (match f.categories with
   | some (v :: vs) => [Cond.inList .canonicalCategoryName (v :: vs)]
   | _ => [])

/-- The column one `groupBy` dimension pushes onto `groupByColumns` (the
`hour` case pushes `date(created_at)`, not the hour truncation). -/
def pushOf : Dim → Expr
  | .location => .storeId
  | .product => .canonicalItemName
  | .category => .canonicalCategoryName
  | .date => .dateDay
  | .hour => .dateDay
  | .fulfillment_method => .fulfillmentMethod
  | .provider => .provider

/-- The group-by loop: accumulates the pushed columns and the last assignment
to `groupByTimeExpr`.  The `hour` case sets `groupByTimeExpr` to the
hour-truncated expression but pushes `date(created_at)` — exactly as the
source does. -/
def groupColsOf (gb : List Dim) : List Expr × Option Expr :=
  gb.foldl
    (fun acc dim =>
      match dim with
      | .location => (acc.1 ++ [Expr.storeId], acc.2)
      | .product => (acc.1 ++ [Expr.canonicalItemName], acc.2)
      | .category => (acc.1 ++ [Expr.canonicalCategoryName], acc.2)
      | .date => (acc.1 ++ [Expr.dateDay], some Expr.dateDay)
      | .hour => (acc.1 ++ [Expr.dateDay], some Expr.dateTruncHour)
      | .fulfillment_method => (acc.1 ++ [Expr.fulfillmentMethod], acc.2)
      | .provider => (acc.1 ++ [Expr.provider], acc.2))
    ([], none)

/-- The order-by section: the sort column switch (`name` always resolves to
`canonical_items.canonical_name`; `date` resolves to `groupByTimeExpr`, which
may be undefined), then `asc` unless `sortOrder === "desc"`. -/
def orderByOf (sb : Option SortBy) (so : Option SortOrder) (gbte : Option Expr) :
    Option (Expr × SortOrder) :=
  match sb with
  | none => none
  | some sb =>
    let sortColumn : Option Expr :=
      match sb with
      | .value => some .valueIdent
      | .count => some .countStar
      | .name => some .canonicalItemName
      | .date => gbte
    sortColumn.map (fun c => (c, if so = some .desc then .desc else .asc))

/-- `buildQueryPlan(db, intent)`. -/
def buildQueryPlan (intent : QueryIntent) : QueryPlan :=
  { fromTable := if (metricInfo intent.metric).2 then .orders else .orderItems
    selectShape := selectShapeOf intent.metric intent.groupBy
    joins := joinsOf intent.metric intent.groupBy intent.filters
    whereConds := whereOf intent.filters
    groupByCols := (groupColsOf intent.groupBy).1
    orderBy := orderByOf intent.sortBy intent.sortOrder (groupColsOf intent.groupBy).2
    limit := match intent.limit with
      | some n => if n = 0 then none else some n   -- `if (limit)`: 0 is falsy
      | none => none }

/-- The keys of the select shape — the column names of the rows the database
returns for this plan. -/
def selectKeys (intent : QueryIntent) : List String :=
  (buildQueryPlan intent).selectShape.map Prod.fst

/-- Satisfaction of the `date_range` condition by an order timestamp `t` (ms
since epoch); the membership conditions do not constrain the timestamp. -/
def tsSatisfies (c : Cond) (t : Int) : Bool :=
  match c with
  | .dateRange lo hi => lo ≤ t && t ≤ hi
  | .inList _ _ => true

/-! ### `transformQueryResult` (queryBuilder.ts lines 291-317)

A result row is modelled as a partial map from column name to string value
(`none` = column absent).  `fmt` models `new Date(v).toLocaleString()` and
`toNum` models `Number(v)` (`none` = `NaN`); both are environment-dependent
(locale, timezone) and are therefore parameters. -/

/-- JS truthiness of `row.k`: present and not the empty string. -/
def truthyStr (o : Option String) : Bool :=
  match o with
  | none => false
  | some s => s ≠ ""

/-- The `name` computed for one row. -/
def transformName (fmt : String → String) (groupBy : List Dim)
    (row : String → Option String) : String :=
  if groupBy.isEmpty then "Total"
  else
    let parts :=
      (if truthyStr (row "store_id") then [(row "store_id").getD ""] else []) ++
      (if truthyStr (row "canonical_name") then [(row "canonical_name").getD ""] else []) ++
      (if truthyStr (row "fulfillment_method") then [(row "fulfillment_method").getD ""] else []) ++
      (if truthyStr (row "provider") then [(row "provider").getD ""] else []) ++
      (if truthyStr (row "created_at") then [fmt ((row "created_at").getD "")] else [])
    if parts.isEmpty then "Total" else String.intercalate " - " parts

/-- One row of `transformQueryResult`: the name and `Number(row.value) || 0`. -/
def transformRow (fmt : String → String) (toNum : String → Option ℚ) (groupBy : List Dim)
    (row : String → Option String) : String × ℚ :=
  (transformName fmt groupBy row,
   match row "value" with
   | none => 0
   | some s => match toNum s with
     | none => 0       -- Number gave NaN, `NaN || 0`
     | some q => q     -- `q || 0` is q (also when q = 0)
   )

/-! ### Canonical resolver (`resolveCanonical`, itemNormalizer.js lines 70-162)

The Supabase client is modelled by an explicit store value plus an
environment of per-call failure flags.  The client never throws: each call
returns `{ data, error }`.  The code inspects `error` only for the
canonical-entity insert (where it rethrows); the mapping inserts discard the
result entirely, so a failed mapping insert leaves the store unchanged and
the resolution continues. -/

inductive EntityType
  | item | category
deriving DecidableEq, Repr

/-- A row of `item_mappings` / `category_mappings`. -/
structure Mapping where
  rawName : List Char
  normalizedRawName : List Char
  canonicalId : Nat
  method : String
  confidence : ℚ
deriving DecidableEq, Repr

/-- A row of `canonical_items` / `canonical_categories`.  `normalizedName`
is `normalizeText(canonicalName)`, which is `null` when the canonical name is
empty. -/
structure CanonicalEntity where
  id : Nat
  canonicalName : List Char
  normalizedName : Option (List Char)
deriving DecidableEq, Repr

/-- The four tables the resolver touches, plus the id the next insert will
receive. -/
structure Store where
  itemMappings : List Mapping
  categoryMappings : List Mapping
  canonicalItems : List CanonicalEntity
  canonicalCategories : List CanonicalEntity
  nextId : Nat
deriving DecidableEq, Repr

/-- Failure injection for the two kinds of insert the resolver performs. -/
structure StoreEnv where
  failCanonicalInsert : Bool
  failMappingInsert : Bool
deriving DecidableEq, Repr

/-- Errors a resolution can end in: the rethrown store error from the
canonical insert, or the TypeError thrown by `levenshtein.get` when an
entity's `normalized_name` is `null`. -/
inductive ResolveErr
  | storeError | typeError
deriving DecidableEq, Repr

def mappingsOf (st : Store) : EntityType → List Mapping
  | .item => st.itemMappings
  | .category => st.categoryMappings

def canonicalsOf (st : Store) : EntityType → List CanonicalEntity
  | .item => st.canonicalItems
  | .category => st.canonicalCategories

def addMapping (st : Store) (ty : EntityType) (m : Mapping) : Store :=
  match ty with
  | .item => { st with itemMappings := st.itemMappings ++ [m] }
  | .category => { st with categoryMappings := st.categoryMappings ++ [m] }

def addCanonical (st : Store) (ty : EntityType) (e : CanonicalEntity) : Store :=
  match ty with
  | .item => { st with canonicalItems := st.canonicalItems ++ [e] }
  | .category => { st with canonicalCategories := st.canonicalCategories ++ [e] }

/-- The default thresholds: 0.8 for items, 0.75 for categories, unless the
caller supplied one. -/
def thresholdOf (ty : EntityType) (t : Option ℚ) : ℚ :=
  t.getD (match ty with | .item => 4/5 | .category => 3/4)

/-- Step 1, the exact-mapping lookup: `.eq(field, normalized).single()`
yields data exactly when the filter selects exactly one row. -/
def lookupMapping (st : Store) (ty : EntityType) (normalized : List Char) : Option Nat :=
  match (mappingsOf st ty).filter (fun m => m.normalizedRawName = normalized) with
  | [m] => some m.canonicalId
  | _ => none

/-- Step 2, the best-match loop (`score > bestScore`, first-seen keeps the
lead on ties).  A `NaN` score fails the comparison and is skipped; a `null`
`normalized_name` crashes `levenshtein.get`. -/
def bestOf (normalized : List Char) (entries : List CanonicalEntity) :
    Except ResolveErr (Option CanonicalEntity × ℚ) :=
  entries.foldlM
    (fun acc e =>
      match e.normalizedName with
      | none => .error .typeError
      | some nm =>
        match similarity normalized nm with
        | none => .ok acc
        | some score => .ok (if acc.2 < score then (some e, score) else acc))
    (none, 0)

/-- JS `split(' ')` (empty fields kept). -/
def splitOnSpace : List Char → List (List Char)
  | [] => [[]]
  | c :: r =>
    if c = ' ' then [] :: splitOnSpace r
    else
      match splitOnSpace r with
      | w :: ws => (c :: w) :: ws
      | [] => [[c]]

/-- ASCII model of `toUpperCase()` on one character. -/
def upChar (c : Char) : Char :=
  if 'a' ≤ c && c ≤ 'z' then Char.ofNat (c.toNat - 32) else c

/-- `w.charAt(0).toUpperCase() + w.slice(1)`. -/
def capitalizeWord : List Char → List Char
  | [] => []
  | c :: r => upChar c :: r

/-- `join(' ')`. -/
def joinSpace : List (List Char) → List Char
  | [] => []
  | [w] => w
  | w :: ws => w ++ ' ' :: joinSpace ws

/-- Category display name: capitalize each space-separated token of the
normalized string. -/
def titleCase (l : List Char) : List Char :=
  joinSpace ((splitOnSpace l).map capitalizeWord)

/-- Match attempt for `/\b\d+\s*pcs?\b/i` anchored at the head; `pb` is the
boundary state before the head.  Both `\d+` and `\s*` are forced maximal. -/
def qtyAt (pb : Bool) (l : List Char) : Option Nat :=
  if pb then
    let k := (l.takeWhile isDigitChar).length
    if k = 0 then none
    else
      let rest1 := l.drop k
      let w := (rest1.takeWhile isJsWs).length
      match rest1.drop w with
      | p :: c :: rest3 =>
        if (Char.toLower p = 'p' && Char.toLower c = 'c') then
          match rest3 with
          | s :: rest4 =>
            if Char.toLower s = 's' then
              if wordBoundaryAfter rest4 then some (k + w + 3) else none
            else if wordBoundaryAfter rest3 then some (k + w + 2) else none
          | [] => some (k + w + 2)
        else none
      | _ => none
  else none

/-- `rawName.replace(/\b\d+\s*pcs?\b/i, '')`: non-global, so the scan stops
after the first replacement. -/
def stripQty : Bool → List Char → List Char
  | _, [] => []
  | pb, c :: rest =>
    match qtyAt pb (c :: rest) with
    | some n => rest.drop (n - 1)
    | none => c :: stripQty (!(isWordChar c)) rest

/-- Item display name: strip the first quantity/"pcs" pattern from the *raw*
name, then trim. -/
def stripQtyRaw (raw : List Char) : List Char :=
  jsTrim (stripQty true raw)

/-- One iteration of the best-match loop (the `none` branch is unreachable
when every entity has a non-null normalized name). -/
def bestStep (normalized : List Char) (acc : Option CanonicalEntity × ℚ)
    (e : CanonicalEntity) : Option CanonicalEntity × ℚ :=
  match e.normalizedName with
  | none => acc
  | some nm =>
    match similarity normalized nm with
    | none => acc
    | some score => if acc.2 < score then (some e, score) else acc

/-- The pure content of the best-match loop, used to state what `bestOf`
computes when no entity has a `null` normalized name. -/
def bestFold (normalized : List Char) : List CanonicalEntity →
    (Option CanonicalEntity × ℚ) → Option CanonicalEntity × ℚ
  | [], acc => acc
  | e :: es, acc => bestFold normalized es (bestStep normalized acc e)

/-- The canonical display name built in step 4: title-cased normalized string
for categories, quantity-stripped raw name for items. -/
def canonicalNameOf (rawName : List Char) (ty : EntityType) (normalized : List Char) :
    List Char :=
  match ty with
  | .category => titleCase normalized
  | .item => stripQtyRaw rawName

/-- The row inserted into the canonical table in step 4: the display name
and its (possibly `null`) normalization, under the next id. -/
def newEntity (nfkd : List Char → List Char) (st : Store) (rawName : List Char)
    (ty : EntityType) (normalized : List Char) : CanonicalEntity :=
  ⟨st.nextId, canonicalNameOf rawName ty normalized,
    normalizeText nfkd (canonicalNameOf rawName ty normalized)⟩

/-- The store after a successful canonical insert in step 4, followed by the
mapping insert whose result the code discards (so a failed mapping insert
leaves only the canonical row). -/
def createdState (nfkd : List Char → List Char) (env : StoreEnv) (st : Store)
    (rawName : List Char) (ty : EntityType) (normalized : List Char) : Store :=
  let st1 := { addCanonical st ty (newEntity nfkd st rawName ty normalized) with
    nextId := st.nextId + 1 }
  if env.failMappingInsert then st1
  else addMapping st1 ty
    ⟨rawName, normalized, (newEntity nfkd st rawName ty normalized).id, "created", 1⟩

/-- Step 4, creating a new canonical entity and its mapping.  A store error
on the canonical insert is rethrown; the mapping insert's result is
discarded, so its failure only means the row is absent. -/
def createNew (nfkd : List Char → List Char) (env : StoreEnv) (st : Store)
    (rawName : List Char) (ty : EntityType) (normalized : List Char) :
    Except ResolveErr (Option Nat × Store) :=
  if env.failCanonicalInsert then .error .storeError
  else .ok (some (newEntity nfkd st rawName ty normalized).id,
    createdState nfkd env st rawName ty normalized)

/-- `resolveCanonical(supabase, rawName, entityType, fuzzyThreshold)`. -/
def resolveCanonical (nfkd : List Char → List Char) (env : StoreEnv) (st : Store)
    (rawName : List Char) (ty : EntityType) (thr : Option ℚ) :
    Except ResolveErr (Option Nat × Store) :=
  if rawName = [] then .ok (none, st)
  else
    let threshold := thresholdOf ty thr
    let normalized := normalizeCore nfkd rawName
    match lookupMapping st ty normalized with
    | some cid => .ok (some cid, st)
    | none =>
      match bestOf normalized (canonicalsOf st ty) with
      | .error e => .error e
      | .ok (bm, bestScore) =>
        match bm with
        | some best =>
          if threshold ≤ bestScore then
            let st1 :=
              if env.failMappingInsert then st
              else addMapping st ty ⟨rawName, normalized, best.id, "fuzzy", bestScore⟩
            .ok (some best.id, st1)
          else createNew nfkd env st rawName ty normalized
        | none => createNew nfkd env st rawName ty normalized

/-! ### Auxiliary predicates used by the theorems -/

/-- The character set of normalization results: lowercase letters, digits and
the single space, by code point. -/
def normChar (c : Char) : Bool :=
  (97 ≤ c.toNat && c.toNat ≤ 122) || (48 ≤ c.toNat && c.toNat ≤ 57) || c.toNat = 32

/-- Whether a `/\b\d+\b/` match exists anywhere in the string, scanning with
the boundary state `pb` before the head. -/
def hasNum : Bool → List Char → Bool
  | _, [] => false
  | pb, c :: rest => (numsAt pb (c :: rest)).isSome || hasNum (!(isWordChar c)) rest

/-- Whether two adjacent whitespace characters occur anywhere. -/
def noWsRun : List Char → Bool
  | [] => true
  | [_] => true
  | a :: b :: r => !(isJsWs a && isJsWs b) && noWsRun (b :: r)

/-! ## Computation rules for the fuel-indexed scans

Each fuel-indexed function is independent of the fuel as soon as the fuel
covers the list length, which yields the intended unfolding equations. -/

theorem length_drop_le (rest : List Char) (k : Nat) : (rest.drop k).length ≤ rest.length := by
  rw [List.length_drop]
  omega

theorem length_dropWhile_le (rest : List Char) (p : Char → Bool) :
    (rest.dropWhile p).length ≤ rest.length :=
  List.Sublist.length_le (List.dropWhile_sublist _)

theorem stripPcsF_succ_cons (f : Nat) (c : Char) (rest : List Char) :
    stripPcsF (f + 1) (c :: rest) =
      match pcsAt (c :: rest) with
      | some n => stripPcsF f (rest.drop (n - 1))
      | none => c :: stripPcsF f rest := rfl

theorem stripPcsF_irrel : ∀ (f g : Nat) (l : List Char),
    l.length ≤ f → l.length ≤ g → stripPcsF f l = stripPcsF g l := by
  intro f
  induction f with
  | zero =>
    intro g l hf hg
    have hl : l = [] := List.length_eq_zero.mp (Nat.le_zero.mp hf)
    subst hl
    cases g <;> rfl
  | succ f ih =>
    intro g l hf hg
    cases l with
    | nil => cases g <;> rfl
    | cons c rest =>
      cases g with
      | zero => simp at hg
      | succ g =>
        simp only [List.length_cons] at hf hg
        rw [stripPcsF_succ_cons, stripPcsF_succ_cons]
        cases hp : pcsAt (c :: rest) with
        | some n =>
          simp only [hp]
          exact ih g (rest.drop (n - 1))
            (le_trans (length_drop_le rest _) (by omega))
            (le_trans (length_drop_le rest _) (by omega))
        | none =>
          simp only [hp]
          rw [ih g rest (by omega) (by omega)]

theorem stripPcs_nil : stripPcs [] = [] := rfl

theorem stripPcs_cons_some (c : Char) (rest : List Char) (n : Nat)
    (h : pcsAt (c :: rest) = some n) :
    stripPcs (c :: rest) = stripPcs (rest.drop (n - 1)) := by
  show stripPcsF (rest.length + 1) (c :: rest) = _
  rw [stripPcsF_succ_cons]
  simp only [h]
  exact stripPcsF_irrel rest.length _ _ (length_drop_le rest _) le_rfl

theorem stripPcs_cons_none (c : Char) (rest : List Char)
    (h : pcsAt (c :: rest) = none) :
    stripPcs (c :: rest) = c :: stripPcs rest := by
  show stripPcsF (rest.length + 1) (c :: rest) = _
  rw [stripPcsF_succ_cons]
  simp only [h]
  rfl

theorem stripNumsF_succ_cons (f : Nat) (pb : Bool) (c : Char) (rest : List Char) :
    stripNumsF (f + 1) pb (c :: rest) =
      match numsAt pb (c :: rest) with
      | some n => stripNumsF f false (rest.drop (n - 1))
      | none => c :: stripNumsF f (!(isWordChar c)) rest := rfl

theorem stripNumsF_irrel : ∀ (f g : Nat) (pb : Bool) (l : List Char),
    l.length ≤ f → l.length ≤ g → stripNumsF f pb l = stripNumsF g pb l := by
  intro f
  induction f with
  | zero =>
    intro g pb l hf hg
    have hl : l = [] := List.length_eq_zero.mp (Nat.le_zero.mp hf)
    subst hl
    cases g <;> rfl
  | succ f ih =>
    intro g pb l hf hg
    cases l with
    | nil => cases g <;> rfl
    | cons c rest =>
      cases g with
      | zero => simp at hg
      | succ g =>
        simp only [List.length_cons] at hf hg
        rw [stripNumsF_succ_cons, stripNumsF_succ_cons]
        cases hp : numsAt pb (c :: rest) with
        | some n =>
          simp only [hp]
          exact ih g false (rest.drop (n - 1))
            (le_trans (length_drop_le rest _) (by omega))
            (le_trans (length_drop_le rest _) (by omega))
        | none =>
          simp only [hp]
          rw [ih g (!(isWordChar c)) rest (by omega) (by omega)]

theorem stripNums_nil (pb : Bool) : stripNums pb [] = [] := rfl

theorem stripNums_cons_some (pb : Bool) (c : Char) (rest : List Char) (n : Nat)
    (h : numsAt pb (c :: rest) = some n) :
    stripNums pb (c :: rest) = stripNums false (rest.drop (n - 1)) := by
  show stripNumsF (rest.length + 1) pb (c :: rest) = _
  rw [stripNumsF_succ_cons]
  simp only [h]
  exact stripNumsF_irrel rest.length _ _ _ (length_drop_le rest _) le_rfl

theorem stripNums_cons_none (pb : Bool) (c : Char) (rest : List Char)
    (h : numsAt pb (c :: rest) = none) :
    stripNums pb (c :: rest) = c :: stripNums (!(isWordChar c)) rest := by
  show stripNumsF (rest.length + 1) pb (c :: rest) = _
  rw [stripNumsF_succ_cons]
  simp only [h]
  rfl

theorem collapseWsF_succ_cons (f : Nat) (c : Char) (rest : List Char) :
    collapseWsF (f + 1) (c :: rest) =
      if isJsWs c then ' ' :: collapseWsF f (rest.dropWhile isJsWs)
      else c :: collapseWsF f rest := rfl

theorem collapseWsF_irrel : ∀ (f g : Nat) (l : List Char),
    l.length ≤ f → l.length ≤ g → collapseWsF f l = collapseWsF g l := by
  intro f
  induction f with
  | zero =>
    intro g l hf hg
    have hl : l = [] := List.length_eq_zero.mp (Nat.le_zero.mp hf)
    subst hl
    cases g <;> rfl
  | succ f ih =>
    intro g l hf hg
    cases l with
    | nil => cases g <;> rfl
    | cons c rest =>
      cases g with
      | zero => simp at hg
      | succ g =>
        simp only [List.length_cons] at hf hg
        rw [collapseWsF_succ_cons, collapseWsF_succ_cons]
        by_cases hw : isJsWs c
        · rw [if_pos hw, if_pos hw,
            ih g (rest.dropWhile isJsWs)
              (le_trans (length_dropWhile_le rest _) (by omega))
              (le_trans (length_dropWhile_le rest _) (by omega))]
        · rw [if_neg hw, if_neg hw, ih g rest (by omega) (by omega)]

theorem collapseWs_nil : collapseWs [] = [] := rfl

theorem collapseWs_cons_ws (c : Char) (rest : List Char) (h : isJsWs c = true) :
    collapseWs (c :: rest) = ' ' :: collapseWs (rest.dropWhile isJsWs) := by
  show collapseWsF (rest.length + 1) (c :: rest) = _
  rw [collapseWsF_succ_cons, if_pos h]
  rw [collapseWsF_irrel rest.length _ _ (length_dropWhile_le rest _) le_rfl]
  rfl

theorem collapseWs_cons_not_ws (c : Char) (rest : List Char) (h : isJsWs c = false) :
    collapseWs (c :: rest) = c :: collapseWs rest := by
  show collapseWsF (rest.length + 1) (c :: rest) = _
  rw [collapseWsF_succ_cons, if_neg (by rw [h]; exact Bool.false_ne_true)]
  rfl

theorem levF_succ_cons (f : Nat) (x y : Char) (xs ys : List Char) :
    levF (f + 1) (x :: xs) (y :: ys) =
      if x = y then levF f xs ys
      else 1 + min (levF f xs ys) (min (levF f (x :: xs) ys) (levF f xs (y :: ys))) := rfl

theorem levF_irrel : ∀ (f g : Nat) (a b : List Char),
    a.length + b.length ≤ f → a.length + b.length ≤ g → levF f a b = levF g a b := by
  intro f
  induction f with
  | zero =>
    intro g a b hf hg
    match a, b with
    | [], [] => cases g <;> rfl
    | [], y :: ys => simp at hf
    | x :: xs, b => simp [Nat.add_comm] at hf
  | succ f ih =>
    intro g a b hf hg
    match a, b with
    | [], [] => cases g <;> rfl
    | [], y :: ys =>
      cases g with
      | zero => simp at hg
      | succ g => rfl
    | x :: xs, [] =>
      cases g with
      | zero => simp [Nat.add_comm] at hg
      | succ g => rfl
    | x :: xs, y :: ys =>
      cases g with
      | zero => simp at hg
      | succ g =>
        simp only [List.length_cons] at hf hg
        rw [levF_succ_cons, levF_succ_cons]
        by_cases hxy : x = y
        · rw [if_pos hxy, if_pos hxy]
          exact ih g xs ys (by omega) (by omega)
        · rw [if_neg hxy, if_neg hxy,
            ih g xs ys (by omega) (by omega),
            ih g (x :: xs) ys (by simp only [List.length_cons]; omega)
              (by simp only [List.length_cons]; omega),
            ih g xs (y :: ys) (by simp only [List.length_cons]; omega)
              (by simp only [List.length_cons]; omega)]

theorem lev_nil_left (b : List Char) : lev [] b = b.length := by
  cases b <;> rfl

theorem lev_nil_right (a : List Char) : lev a [] = a.length := by
  cases a <;> rfl

theorem lev_cons (x y : Char) (xs ys : List Char) :
    lev (x :: xs) (y :: ys) =
      if x = y then lev xs ys
      else 1 + min (lev xs ys) (min (lev (x :: xs) ys) (lev xs (y :: ys))) := by
  show levF ((x :: xs).length + (y :: ys).length) _ _ = _
  simp only [List.length_cons]
  have hstep : (xs.length + 1) + (ys.length + 1) = (xs.length + ys.length + 1) + 1 := by omega
  rw [hstep, levF_succ_cons]
  by_cases hxy : x = y
  · rw [if_pos hxy, if_pos hxy]
    exact levF_irrel _ _ xs ys (by omega) le_rfl
  · rw [if_neg hxy, if_neg hxy,
      levF_irrel _ (xs.length + ys.length) xs ys (by omega) le_rfl,
      levF_irrel _ ((x :: xs).length + ys.length) (x :: xs) ys
        (by simp only [List.length_cons]; omega) (by simp only [List.length_cons]; omega),
      levF_irrel _ (xs.length + (y :: ys).length) xs (y :: ys)
        (by simp only [List.length_cons]; omega) (by simp only [List.length_cons]; omega)]
    rfl

/-! ## Character-class lemmas -/

theorem ws_not_word (c : Char) (h : isJsWs c = true) : isWordChar c = false := by
  simp only [isJsWs, Bool.or_eq_true, Bool.and_eq_true, decide_eq_true_eq] at h
  simp only [isWordChar, Bool.or_eq_false_iff, Bool.and_eq_false_iff,
    decide_eq_false_iff_not]
  omega

theorem digit_word (c : Char) (h : isDigitChar c = true) : isWordChar c = true := by
  simp only [isDigitChar, Bool.and_eq_true, decide_eq_true_eq] at h
  simp only [isWordChar, Bool.or_eq_true, Bool.and_eq_true, decide_eq_true_eq]
  omega

theorem ws_not_digit (c : Char) (h : isJsWs c = true) : isDigitChar c = false := by
  simp only [isJsWs, Bool.or_eq_true, Bool.and_eq_true, decide_eq_true_eq] at h
  simp only [isDigitChar, Bool.and_eq_false_iff, decide_eq_false_iff_not]
  omega

theorem not_word_not_digit (c : Char) (h : isWordChar c = false) : isDigitChar c = false := by
  cases hd : isDigitChar c with
  | false => rfl
  | true => rw [digit_word c hd] at h; exact absurd h (by simp)

theorem normChar_space : normChar ' ' = true := by decide

theorem normChar_of_keep_not_ws (c : Char) (hk : keepChar c = true)
    (hw : isJsWs c = false) : normChar c = true := by
  simp only [keepChar, isJsWs, Bool.or_eq_true, Bool.and_eq_true, Bool.or_eq_false_iff,
    Bool.and_eq_false_iff, decide_eq_true_eq, decide_eq_false_iff_not] at hk hw
  simp only [normChar, Bool.or_eq_true, Bool.and_eq_true, decide_eq_true_eq]
  omega

theorem normChar_ws_eq_space (c : Char) (hn : normChar c = true)
    (hw : isJsWs c = true) : c = ' ' := by
  simp only [normChar, Bool.or_eq_true, Bool.and_eq_true, decide_eq_true_eq] at hn
  simp only [isJsWs, Bool.or_eq_true, Bool.and_eq_true, decide_eq_true_eq] at hw
  have hc : c.toNat = 32 := by omega
  exact Char.ext_iff.mpr (UInt32.ext_iff.mpr hc)

theorem normChar_keep (c : Char) (hn : normChar c = true) : keepChar c = true := by
  simp only [normChar, Bool.or_eq_true, Bool.and_eq_true, decide_eq_true_eq] at hn
  simp only [keepChar, isJsWs, Bool.or_eq_true, Bool.and_eq_true, decide_eq_true_eq]
  omega

theorem normChar_not_emoji (c : Char) (hn : normChar c = true) :
    isEmojiChar c = false := by
  simp only [normChar, Bool.or_eq_true, Bool.and_eq_true, decide_eq_true_eq] at hn
  simp only [isEmojiChar, Bool.and_eq_false_iff, decide_eq_false_iff_not]
  omega

theorem normChar_ws_iff (c : Char) (hn : normChar c = true) :
    isJsWs c = true → c = ' ' :=
  fun hw => normChar_ws_eq_space c hn hw

theorem toLower_normChar (c : Char) (hn : normChar c = true) : Char.toLower c = c := by
  simp only [normChar, Bool.or_eq_true, Bool.and_eq_true, decide_eq_true_eq] at hn
  rw [Char.toLower]
  rw [if_neg]
  simp only [Bool.and_eq_true, decide_eq_true_eq, not_and]
  intro h1 h2
  omega

theorem map_id_of (l : List Char) (f : Char → Char) (h : ∀ c ∈ l, f c = c) :
    l.map f = l := by
  induction l with
  | nil => rfl
  | cons c rest ih =>
    rw [List.map_cons, h c (List.mem_cons_self _ _),
      ih (fun c hc => h c (List.mem_cons_of_mem _ hc))]

/-! ## Lemmas about `numsAt` and `hasNum` -/

theorem drop_length_takeWhile (p : Char → Bool) :
    ∀ l : List Char, l.drop (l.takeWhile p).length = l.dropWhile p := by
  intro l
  induction l with
  | nil => rfl
  | cons c rest ih =>
    by_cases hc : p c
    · rw [List.takeWhile_cons_of_pos hc, List.dropWhile_cons_of_pos hc]
      simpa using ih
    · rw [List.takeWhile_cons_of_neg hc, List.dropWhile_cons_of_neg hc]
      rfl

theorem numsAt_false (l : List Char) : numsAt false l = none := rfl

theorem numsAt_isSome (pb : Bool) (l : List Char) :
    (numsAt pb l).isSome =
      (pb && !(l.takeWhile isDigitChar).isEmpty &&
        wordBoundaryAfter (l.dropWhile isDigitChar)) := by
  rw [numsAt]
  cases pb with
  | false => rfl
  | true =>
    rw [if_pos rfl]
    simp only [Bool.true_and]
    rw [← drop_length_takeWhile isDigitChar l]
    by_cases hk : 0 < (l.takeWhile isDigitChar).length
    · have hne : (l.takeWhile isDigitChar).isEmpty = false := by
        cases he : l.takeWhile isDigitChar with
        | nil => rw [he] at hk; simp at hk
        | cons a b => rfl
      rw [hne]
      simp only [Bool.not_false, Bool.true_and]
      cases hb : wordBoundaryAfter (l.drop (l.takeWhile isDigitChar).length) with
      | true =>
        rw [if_pos (by simp [hk])]
        rfl
      | false =>
        rw [if_neg (by simp)]
        rfl
    · have hz : (l.takeWhile isDigitChar).length = 0 := by omega
      have hne : (l.takeWhile isDigitChar).isEmpty = true := by
        cases he : l.takeWhile isDigitChar with
        | nil => rfl
        | cons a b => rw [he] at hz; simp at hz
      rw [hne]
      rw [if_neg (by simp [hz])]
      rfl

theorem numsAt_head_not_digit (pb : Bool) (c : Char) (t : List Char)
    (hc : isDigitChar c = false) : numsAt pb (c :: t) = none := by
  rw [numsAt]
  cases pb with
  | false => rfl
  | true =>
    rw [if_pos rfl]
    rw [if_neg]
    rw [List.takeWhile_cons_of_neg (by rw [hc]; exact Bool.false_ne_true)]
    simp

theorem hasNum_nil (pb : Bool) : hasNum pb [] = false := rfl

theorem hasNum_cons (pb : Bool) (c : Char) (rest : List Char) :
    hasNum pb (c :: rest) =
      ((numsAt pb (c :: rest)).isSome || hasNum (!(isWordChar c)) rest) := rfl

theorem numsAt_some (pb : Bool) (l : List Char) (m : Nat) (h : numsAt pb l = some m) :
    pb = true ∧ m = (l.takeWhile isDigitChar).length ∧ 0 < m ∧
      wordBoundaryAfter (l.drop m) = true := by
  rw [numsAt] at h
  cases pb with
  | false => simp at h
  | true =>
    rw [if_pos rfl] at h
    by_cases hk : (0 < (l.takeWhile isDigitChar).length ∧
        wordBoundaryAfter (l.drop (l.takeWhile isDigitChar).length) = true)
    · rw [if_pos (by simp [hk.1, hk.2])] at h
      have hm : m = (l.takeWhile isDigitChar).length := (Option.some.inj h).symm
      subst hm
      exact ⟨rfl, rfl, hk.1, hk.2⟩
    · rw [if_neg (by simp only [Bool.and_eq_true, decide_eq_true_eq]; exact hk)] at h
      simp at h

/-! ## `stripPcs` and `stripNums`: structural lemmas -/

theorem stripPcs_subset_aux :
    ∀ (n : Nat) (l : List Char), l.length ≤ n → ∀ c ∈ stripPcs l, c ∈ l := by
  intro n
  induction n with
  | zero =>
    intro l hl
    have : l = [] := List.length_eq_zero.mp (Nat.le_zero.mp hl)
    subst this
    intro c hc
    exact hc
  | succ n ih =>
    intro l hl c hc
    cases l with
    | nil => exact hc
    | cons a rest =>
      simp only [List.length_cons] at hl
      cases hp : pcsAt (a :: rest) with
      | some m =>
        rw [stripPcs_cons_some a rest m hp] at hc
        have hmem := ih (rest.drop (m - 1))
          (le_trans (length_drop_le rest _) (by omega)) c hc
        exact List.mem_cons_of_mem _ (List.drop_subset _ _ hmem)
      | none =>
        rw [stripPcs_cons_none a rest hp] at hc
        rcases List.mem_cons.mp hc with rfl | hc2
        · exact List.mem_cons_self _ _
        · exact List.mem_cons_of_mem _ (ih rest (by omega) c hc2)

theorem stripPcs_subset (l : List Char) : ∀ c ∈ stripPcs l, c ∈ l :=
  stripPcs_subset_aux l.length l le_rfl

theorem stripNums_subset_aux :
    ∀ (n : Nat) (pb : Bool) (l : List Char), l.length ≤ n →
      ∀ c ∈ stripNums pb l, c ∈ l := by
  intro n
  induction n with
  | zero =>
    intro pb l hl
    have : l = [] := List.length_eq_zero.mp (Nat.le_zero.mp hl)
    subst this
    intro c hc
    exact hc
  | succ n ih =>
    intro pb l hl c hc
    cases l with
    | nil => exact hc
    | cons a rest =>
      simp only [List.length_cons] at hl
      cases hp : numsAt pb (a :: rest) with
      | some m =>
        rw [stripNums_cons_some pb a rest m hp] at hc
        have hmem := ih false (rest.drop (m - 1))
          (le_trans (length_drop_le rest _) (by omega)) c hc
        exact List.mem_cons_of_mem _ (List.drop_subset _ _ hmem)
      | none =>
        rw [stripNums_cons_none pb a rest hp] at hc
        rcases List.mem_cons.mp hc with rfl | hc2
        · exact List.mem_cons_self _ _
        · exact List.mem_cons_of_mem _ (ih _ rest (by omega) c hc2)

theorem stripNums_subset (pb : Bool) (l : List Char) : ∀ c ∈ stripNums pb l, c ∈ l :=
  stripNums_subset_aux l.length pb l le_rfl

theorem stripNums_of_not_hasNum :
    ∀ (l : List Char) (pb : Bool), hasNum pb l = false → stripNums pb l = l := by
  intro l
  induction l with
  | nil => intro pb h; rfl
  | cons c rest ih =>
    intro pb h
    rw [hasNum_cons] at h
    simp only [Bool.or_eq_false_iff] at h
    obtain ⟨h1, h2⟩ := h
    have hnone : numsAt pb (c :: rest) = none := by
      cases hn : numsAt pb (c :: rest) with
      | none => rfl
      | some m => rw [hn] at h1; simp at h1
    rw [stripNums_cons_none pb c rest hnone, ih _ h2]

/-- The maximal digit prefix, and the word boundary after it, survive a
`stripNums` pass that starts in a non-boundary state: such a pass copies every
leading digit and the first character behind them unchanged. -/
theorem stripNums_false_digits :
    ∀ r : List Char,
      ((stripNums false r).takeWhile isDigitChar = r.takeWhile isDigitChar) ∧
      (wordBoundaryAfter ((stripNums false r).dropWhile isDigitChar) =
        wordBoundaryAfter (r.dropWhile isDigitChar)) := by
  intro r
  induction r with
  | nil => exact ⟨rfl, rfl⟩
  | cons c rest ih =>
    rw [stripNums_cons_none false c rest (numsAt_false _)]
    by_cases hd : isDigitChar c = true
    · have hw : isWordChar c = true := digit_word c hd
      rw [hw]
      simp only [Bool.not_true]
      constructor
      · rw [List.takeWhile_cons_of_pos hd, List.takeWhile_cons_of_pos hd, ih.1]
      · rw [List.dropWhile_cons_of_pos hd, List.dropWhile_cons_of_pos hd]
        exact ih.2
    · constructor
      · rw [List.takeWhile_cons_of_neg hd, List.takeWhile_cons_of_neg hd]
      · rw [List.dropWhile_cons_of_neg hd, List.dropWhile_cons_of_neg hd]
        rfl

/-- After a full `stripNums` pass no `/\b\d+\b/` match is left: every
surviving maximal digit run keeps a word character adjacent to it. -/
theorem stripNums_no_num :
    ∀ (n : Nat) (pb : Bool) (l : List Char), l.length ≤ n →
      hasNum pb (stripNums pb l) = false := by
  intro n
  induction n with
  | zero =>
    intro pb l hl
    have : l = [] := List.length_eq_zero.mp (Nat.le_zero.mp hl)
    subst this
    rfl
  | succ n ih =>
    intro pb l hl
    cases l with
    | nil => rfl
    | cons c rest =>
      simp only [List.length_cons] at hl
      cases hp : numsAt pb (c :: rest) with
      | some m =>
        rw [stripNums_cons_some pb c rest m hp]
        obtain ⟨hpb, hm, hm0, hbd⟩ := numsAt_some pb (c :: rest) m hp
        subst hpb
        have hR : rest.drop (m - 1) = (c :: rest).drop m := by
          rw [show m = (m - 1) + 1 from by omega]
          rfl
        rw [hR] at *
        cases hdrop : (c :: rest).drop m with
        | nil => rfl
        | cons d r2 =>
          rw [hdrop] at hbd
          have hdw : isWordChar d = false := by
            have h2 : (!(isWordChar d)) = true := hbd
            simp only [Bool.not_eq_true'] at h2
            exact h2
          have hdd : isDigitChar d = false := not_word_not_digit d hdw
          have hlen : r2.length ≤ n := by
            have h1 : ((c :: rest).drop m).length = rest.length + 1 - m := by
              rw [List.length_drop]
              rfl
            rw [hdrop] at h1
            simp only [List.length_cons] at h1
            omega
          rw [stripNums_cons_none false d r2 (numsAt_false _), hdw]
          simp only [Bool.not_false]
          rw [hasNum_cons, numsAt_head_not_digit true d _ hdd, hdw]
          simp only [Option.isSome_none, Bool.false_or, Bool.not_false]
          exact ih true r2 hlen
      | none =>
        rw [stripNums_cons_none pb c rest hp]
        rw [hasNum_cons]
        rw [ih (!(isWordChar c)) rest (by omega)]
        simp only [Bool.or_false]
        cases pb with
        | false => rfl
        | true =>
          by_cases hd : isDigitChar c = true
          · have hw : isWordChar c = true := digit_word c hd
            rw [hw]
            simp only [Bool.not_true]
            have hS := stripNums_false_digits rest
            have horig : (numsAt true (c :: rest)).isSome = false := by rw [hp]; rfl
            rw [numsAt_isSome, List.takeWhile_cons_of_pos hd,
              List.dropWhile_cons_of_pos hd] at horig
            simp only [Bool.true_and, List.isEmpty_cons, Bool.not_false] at horig
            rw [numsAt_isSome, List.takeWhile_cons_of_pos hd,
              List.dropWhile_cons_of_pos hd, hS.2]
            simp only [Bool.true_and, List.isEmpty_cons, Bool.not_false]
            exact horig
          · have hd2 : isDigitChar c = false := Bool.eq_false_iff.mpr hd
            rw [numsAt_head_not_digit true c _ hd2]
            rfl

/-! ## Lemmas about `collapseWs` -/

theorem dropWhile_head_not (p : Char → Bool) :
    ∀ (l : List Char) (d : Char) (t : List Char), l.dropWhile p = d :: t → p d = false := by
  intro l
  induction l with
  | nil => intro d t h; exact absurd h (by simp)
  | cons c rest ih =>
    intro d t h
    by_cases hc : p c = true
    · rw [List.dropWhile_cons_of_pos hc] at h
      exact ih d t h
    · rw [List.dropWhile_cons_of_neg hc] at h
      have hcd : c = d := (List.cons.inj h).1
      subst hcd
      exact Bool.eq_false_iff.mpr hc

theorem collapseWs_chars_aux :
    ∀ (n : Nat) (l : List Char), l.length ≤ n →
      ∀ c ∈ collapseWs l, c = ' ' ∨ (c ∈ l ∧ isJsWs c = false) := by
  intro n
  induction n with
  | zero =>
    intro l hl
    have : l = [] := List.length_eq_zero.mp (Nat.le_zero.mp hl)
    subst this
    intro c hc
    rw [collapseWs_nil] at hc
    simp at hc
  | succ n ih =>
    intro l hl c hc
    cases l with
    | nil =>
      rw [collapseWs_nil] at hc
      simp at hc
    | cons a rest =>
      simp only [List.length_cons] at hl
      by_cases ha : isJsWs a = true
      · rw [collapseWs_cons_ws a rest ha] at hc
        rcases List.mem_cons.mp hc with rfl | hc2
        · exact Or.inl rfl
        · rcases ih (rest.dropWhile isJsWs)
            (le_trans (length_dropWhile_le rest _) (by omega)) c hc2 with h | ⟨hmem, hws⟩
          · exact Or.inl h
          · exact Or.inr ⟨List.mem_cons_of_mem _ ((List.dropWhile_sublist _).subset hmem), hws⟩
      · have ha2 : isJsWs a = false := Bool.eq_false_iff.mpr ha
        rw [collapseWs_cons_not_ws a rest ha2] at hc
        rcases List.mem_cons.mp hc with rfl | hc2
        · exact Or.inr ⟨List.mem_cons_self _ _, ha2⟩
        · rcases ih rest (by omega) c hc2 with h | ⟨hmem, hws⟩
          · exact Or.inl h
          · exact Or.inr ⟨List.mem_cons_of_mem _ hmem, hws⟩

theorem collapseWs_chars (l : List Char) :
    ∀ c ∈ collapseWs l, c = ' ' ∨ (c ∈ l ∧ isJsWs c = false) :=
  collapseWs_chars_aux l.length l le_rfl

/-- The maximal digit prefix, and the word boundary after it, survive
`collapseWs`: whitespace is mapped to whitespace (neither digits nor word
characters), everything else is copied. -/
theorem collapseWs_digits :
    ∀ r : List Char,
      ((collapseWs r).takeWhile isDigitChar = r.takeWhile isDigitChar) ∧
      (wordBoundaryAfter ((collapseWs r).dropWhile isDigitChar) =
        wordBoundaryAfter (r.dropWhile isDigitChar)) := by
  intro r
  induction r with
  | nil => exact ⟨rfl, rfl⟩
  | cons c rest ih =>
    by_cases hcw : isJsWs c = true
    · rw [collapseWs_cons_ws c rest hcw]
      have hcd : isDigitChar c = false := ws_not_digit c hcw
      have hsd : isDigitChar ' ' = false := by decide
      constructor
      · rw [List.takeWhile_cons_of_neg (by rw [hsd]; exact Bool.false_ne_true),
          List.takeWhile_cons_of_neg (by rw [hcd]; exact Bool.false_ne_true)]
      · rw [List.dropWhile_cons_of_neg (by rw [hsd]; exact Bool.false_ne_true),
          List.dropWhile_cons_of_neg (by rw [hcd]; exact Bool.false_ne_true)]
        show (!(isWordChar ' ')) = (!(isWordChar c))
        rw [ws_not_word c hcw]
        decide
    · have hcw2 : isJsWs c = false := Bool.eq_false_iff.mpr hcw
      rw [collapseWs_cons_not_ws c rest hcw2]
      by_cases hd : isDigitChar c = true
      · constructor
        · rw [List.takeWhile_cons_of_pos hd, List.takeWhile_cons_of_pos hd, ih.1]
        · rw [List.dropWhile_cons_of_pos hd, List.dropWhile_cons_of_pos hd]
          exact ih.2
      · constructor
        · rw [List.takeWhile_cons_of_neg hd, List.takeWhile_cons_of_neg hd]
        · rw [List.dropWhile_cons_of_neg hd, List.dropWhile_cons_of_neg hd]
          rfl

theorem hasNum_dropWhileWs :
    ∀ r : List Char, hasNum true (r.dropWhile isJsWs) = hasNum true r := by
  intro r
  induction r with
  | nil => rfl
  | cons c rest ih =>
    by_cases hc : isJsWs c = true
    · rw [List.dropWhile_cons_of_pos hc, ih,
        hasNum_cons, numsAt_head_not_digit true c _ (ws_not_digit c hc), ws_not_word c hc]
      simp only [Option.isSome_none, Bool.false_or, Bool.not_false]
    · rw [List.dropWhile_cons_of_neg hc]

theorem hasNum_collapseWs :
    ∀ (n : Nat) (pb : Bool) (l : List Char), l.length ≤ n →
      hasNum pb l = false → hasNum pb (collapseWs l) = false := by
  intro n
  induction n with
  | zero =>
    intro pb l hl _
    have : l = [] := List.length_eq_zero.mp (Nat.le_zero.mp hl)
    subst this
    rfl
  | succ n ih =>
    intro pb l hl h
    cases l with
    | nil => rfl
    | cons c rest =>
      simp only [List.length_cons] at hl
      rw [hasNum_cons] at h
      simp only [Bool.or_eq_false_iff] at h
      obtain ⟨h1, h2⟩ := h
      by_cases hcw : isJsWs c = true
      · rw [collapseWs_cons_ws c rest hcw]
        rw [hasNum_cons, numsAt_head_not_digit pb ' ' _ (by decide)]
        simp only [Option.isSome_none, Bool.false_or]
        rw [show isWordChar ' ' = false from by decide]
        simp only [Bool.not_false]
        apply ih true (rest.dropWhile isJsWs) (le_trans (length_dropWhile_le rest _) (by omega))
        rw [hasNum_dropWhileWs]
        rw [ws_not_word c hcw] at h2
        simpa using h2
      · have hcw2 : isJsWs c = false := Bool.eq_false_iff.mpr hcw
        rw [collapseWs_cons_not_ws c rest hcw2]
        rw [hasNum_cons]
        simp only [Bool.or_eq_false_iff]
        refine ⟨?_, ih _ rest (by omega) h2⟩
        cases pb with
        | false => rfl
        | true =>
          by_cases hd : isDigitChar c = true
          · have hC := collapseWs_digits rest
            rw [numsAt_isSome, List.takeWhile_cons_of_pos hd,
              List.dropWhile_cons_of_pos hd, hC.2]
            simp only [Bool.true_and, List.isEmpty_cons, Bool.not_false]
            rw [numsAt_isSome, List.takeWhile_cons_of_pos hd,
              List.dropWhile_cons_of_pos hd] at h1
            simp only [Bool.true_and, List.isEmpty_cons, Bool.not_false] at h1
            exact h1
          · rw [numsAt_head_not_digit true c _ (Bool.eq_false_iff.mpr hd)]
            rfl

theorem noWsRun_tail (c : Char) (rest : List Char) (h : noWsRun (c :: rest) = true) :
    noWsRun rest = true := by
  cases rest with
  | nil => rfl
  | cons b r =>
    have h2 : (!(isJsWs c && isJsWs b) && noWsRun (b :: r)) = true := h
    simp only [Bool.and_eq_true] at h2
    exact h2.2

theorem noWsRun_collapseWs :
    ∀ (n : Nat) (l : List Char), l.length ≤ n → noWsRun (collapseWs l) = true := by
  intro n
  induction n with
  | zero =>
    intro l hl
    have : l = [] := List.length_eq_zero.mp (Nat.le_zero.mp hl)
    subst this
    rfl
  | succ n ih =>
    intro l hl
    cases l with
    | nil => rfl
    | cons c rest =>
      simp only [List.length_cons] at hl
      by_cases hcw : isJsWs c = true
      · rw [collapseWs_cons_ws c rest hcw]
        cases hdw : rest.dropWhile isJsWs with
        | nil => rfl
        | cons d t =>
          have hdws : isJsWs d = false := dropWhile_head_not isJsWs rest d t hdw
          rw [collapseWs_cons_not_ws d t hdws]
          show (!(isJsWs ' ' && isJsWs d) && noWsRun (d :: collapseWs t)) = true
          rw [hdws]
          simp only [Bool.and_false, Bool.not_false, Bool.true_and]
          rw [← collapseWs_cons_not_ws d t hdws]
          apply ih
          have hld := length_dropWhile_le rest isJsWs
          rw [hdw] at hld
          simp only [List.length_cons] at hld ⊢
          omega
      · have hcw2 : isJsWs c = false := Bool.eq_false_iff.mpr hcw
        rw [collapseWs_cons_not_ws c rest hcw2]
        cases hcr : collapseWs rest with
        | nil => rfl
        | cons b r =>
          show (!(isJsWs c && isJsWs b) && noWsRun (b :: r)) = true
          rw [hcw2]
          simp only [Bool.false_and, Bool.not_false, Bool.true_and]
          rw [← hcr]
          exact ih rest (by omega)

theorem collapse_id :
    ∀ l : List Char, (∀ c ∈ l, normChar c = true) → noWsRun l = true → collapseWs l = l := by
  intro l
  induction l with
  | nil => intro _ _; rfl
  | cons c rest ih =>
    intro hn hr
    by_cases hcw : isJsWs c = true
    · have hcsp : c = ' ' := normChar_ws_eq_space c (hn c (List.mem_cons_self _ _)) hcw
      rw [collapseWs_cons_ws c rest hcw]
      have hrest : rest.dropWhile isJsWs = rest := by
        cases rest with
        | nil => rfl
        | cons b r =>
          have h2 : (!(isJsWs c && isJsWs b) && noWsRun (b :: r)) = true := hr
          simp only [Bool.and_eq_true, Bool.not_eq_true', Bool.and_eq_false_iff] at h2
          rcases h2.1 with hcf | hbf
          · rw [hcw] at hcf
            simp at hcf
          · exact List.dropWhile_cons_of_neg (by rw [hbf]; exact Bool.false_ne_true)
      rw [hrest, hcsp,
        ih (fun d hd => hn d (List.mem_cons_of_mem _ hd)) (noWsRun_tail c rest hr)]
    · have hcw2 : isJsWs c = false := Bool.eq_false_iff.mpr hcw
      rw [collapseWs_cons_not_ws c rest hcw2,
        ih (fun d hd => hn d (List.mem_cons_of_mem _ hd)) (noWsRun_tail c rest hr)]

/-! ## Lemmas about `trimRight` and `jsTrim` -/

theorem trimRight_cons (c : Char) (rest : List Char) :
    trimRight (c :: rest) =
      if (trimRight rest).isEmpty && isJsWs c then [] else c :: trimRight rest := rfl

theorem trimRight_subset : ∀ l : List Char, ∀ c ∈ trimRight l, c ∈ l := by
  intro l
  induction l with
  | nil => intro c hc; exact hc
  | cons a rest ih =>
    intro c hc
    rw [trimRight_cons] at hc
    by_cases h : ((trimRight rest).isEmpty && isJsWs a) = true
    · rw [if_pos h] at hc
      simp at hc
    · rw [if_neg h] at hc
      rcases List.mem_cons.mp hc with rfl | hc2
      · exact List.mem_cons_self _ _
      · exact List.mem_cons_of_mem _ (ih c hc2)

theorem trimRight_append_ws :
    ∀ l : List Char, ∃ s : List Char, l = trimRight l ++ s ∧ ∀ c ∈ s, isJsWs c = true := by
  intro l
  induction l with
  | nil => exact ⟨[], rfl, by simp⟩
  | cons a rest ih =>
    obtain ⟨s, hs, hws⟩ := ih
    rw [trimRight_cons]
    by_cases h : ((trimRight rest).isEmpty && isJsWs a) = true
    · rw [if_pos h]
      simp only [Bool.and_eq_true] at h
      have hre : trimRight rest = [] := by
        cases he : trimRight rest with
        | nil => rfl
        | cons p q =>
          rw [he] at h
          exact absurd h.1 (by simp)
      refine ⟨a :: rest, rfl, ?_⟩
      intro c hc
      rcases List.mem_cons.mp hc with rfl | hc2
      · exact h.2
      · apply hws
        rw [hre] at hs
        simp only [List.nil_append] at hs
        rw [← hs]
        exact hc2
    · rw [if_neg h]
      refine ⟨s, ?_, hws⟩
      rw [List.cons_append, ← hs]

theorem trimRight_idem : ∀ l : List Char, trimRight (trimRight l) = trimRight l := by
  intro l
  induction l with
  | nil => rfl
  | cons a rest ih =>
    rw [trimRight_cons]
    by_cases h : ((trimRight rest).isEmpty && isJsWs a) = true
    · rw [if_pos h]
      rfl
    · rw [if_neg h, trimRight_cons, ih, if_neg h]

theorem trimRight_head (a : Char) (rest : List Char) :
    trimRight (a :: rest) = [] ∨ ∃ t, trimRight (a :: rest) = a :: t := by
  rw [trimRight_cons]
  by_cases h : ((trimRight rest).isEmpty && isJsWs a) = true
  · rw [if_pos h]
    exact Or.inl rfl
  · rw [if_neg h]
    exact Or.inr ⟨trimRight rest, rfl⟩

theorem noWsRun_append_left :
    ∀ (l1 l2 : List Char), noWsRun (l1 ++ l2) = true → noWsRun l1 = true := by
  intro l1
  induction l1 with
  | nil => intro l2 _; rfl
  | cons a r ih =>
    intro l2 h
    cases r with
    | nil => rfl
    | cons b t =>
      have h2 : (!(isJsWs a && isJsWs b) && noWsRun ((b :: t) ++ l2)) = true := h
      simp only [Bool.and_eq_true] at h2
      show (!(isJsWs a && isJsWs b) && noWsRun (b :: t)) = true
      rw [h2.1]
      simp only [Bool.true_and]
      exact ih l2 h2.2

theorem noWsRun_dropWhile (p : Char → Bool) :
    ∀ l : List Char, noWsRun l = true → noWsRun (l.dropWhile p) = true := by
  intro l
  induction l with
  | nil => intro h; exact h
  | cons a r ih =>
    intro h
    by_cases hp : p a = true
    · rw [List.dropWhile_cons_of_pos hp]
      exact ih (noWsRun_tail a r h)
    · rw [List.dropWhile_cons_of_neg hp]
      exact h

theorem dropWhile_append_nondigit :
    ∀ (m s : List Char), (∀ c ∈ s, isDigitChar c = false) →
      (m ++ s).dropWhile isDigitChar = m.dropWhile isDigitChar ++ s := by
  intro m
  induction m with
  | nil =>
    intro s hs
    simp only [List.nil_append, List.dropWhile_nil]
    cases s with
    | nil => rfl
    | cons c t =>
      rw [List.dropWhile_cons_of_neg
        (by rw [hs c (List.mem_cons_self _ _)]; exact Bool.false_ne_true)]
  | cons a r ih =>
    intro s hs
    by_cases hd : isDigitChar a = true
    · rw [List.cons_append, List.dropWhile_cons_of_pos hd,
        List.dropWhile_cons_of_pos hd, ih s hs]
    · rw [List.cons_append, List.dropWhile_cons_of_neg hd,
        List.dropWhile_cons_of_neg hd, List.cons_append]

theorem wordBoundaryAfter_append_ws (x s : List Char) (hws : ∀ c ∈ s, isJsWs c = true)
    (h : wordBoundaryAfter x = true) : wordBoundaryAfter (x ++ s) = true := by
  cases x with
  | nil =>
    cases s with
    | nil => rfl
    | cons w t =>
      show (!(isWordChar w)) = true
      rw [ws_not_word w (hws w (List.mem_cons_self _ _))]
      rfl
  | cons d t =>
    rw [List.cons_append]
    exact h

theorem hasNum_append_ws :
    ∀ (m : List Char) (pb : Bool) (s : List Char), (∀ c ∈ s, isJsWs c = true) →
      hasNum pb m = true → hasNum pb (m ++ s) = true := by
  intro m
  induction m with
  | nil =>
    intro pb s hws h
    exact absurd h (by simp [hasNum_nil])
  | cons c r ih =>
    intro pb s hws h
    have hsd : ∀ p ∈ s, isDigitChar p = false := fun p hp => ws_not_digit p (hws p hp)
    rw [List.cons_append, hasNum_cons]
    rw [hasNum_cons] at h
    simp only [Bool.or_eq_true] at h
    rcases h with h1 | h2
    · obtain ⟨k, hk⟩ := Option.isSome_iff_exists.mp h1
      obtain ⟨hpb, hm, hm0, hbd⟩ := numsAt_some pb (c :: r) k hk
      subst hpb
      have hd : isDigitChar c = true := by
        by_cases hdc : isDigitChar c = true
        · exact hdc
        · rw [List.takeWhile_cons_of_neg hdc] at hm
          simp only [List.length_nil] at hm
          omega
      have hbd2 : wordBoundaryAfter (r.dropWhile isDigitChar) = true := by
        rw [hm, drop_length_takeWhile, List.dropWhile_cons_of_pos hd] at hbd
        exact hbd
      have hfirst : (numsAt true (c :: (r ++ s))).isSome = true := by
        rw [numsAt_isSome, List.takeWhile_cons_of_pos hd, List.dropWhile_cons_of_pos hd,
          dropWhile_append_nondigit r s hsd]
        simp only [Bool.true_and, List.isEmpty_cons, Bool.not_false]
        exact wordBoundaryAfter_append_ws _ s hws hbd2
      rw [hfirst]
      rfl
    · rw [ih (!(isWordChar c)) s hws h2]
      exact Bool.or_true _

theorem trimRight_jsTrim (l : List Char) : trimRight (jsTrim l) = jsTrim l := by
  rw [jsTrim]
  exact trimRight_idem _

theorem dropWhile_jsTrim (l : List Char) (h : jsTrim l ≠ []) :
    (jsTrim l).dropWhile isJsWs = jsTrim l := by
  rw [jsTrim] at h ⊢
  cases hm : l.dropWhile isJsWs with
  | nil =>
    rw [hm] at h
    exact absurd rfl h
  | cons a t =>
    rw [hm] at h
    have ha : isJsWs a = false := dropWhile_head_not isJsWs l a t hm
    rcases trimRight_head a t with he | ⟨t2, he⟩
    · rw [he] at h
      exact absurd rfl h
    · rw [he]
      exact List.dropWhile_cons_of_neg (by rw [ha]; exact Bool.false_ne_true)

/-! ## Structure of normalization results, and idempotence (claim C5) -/

theorem normChar_jsTrim_collapse (z : List Char)
    (hz : ∀ c ∈ z, isJsWs c = false → normChar c = true) :
    ∀ c ∈ jsTrim (collapseWs z), normChar c = true := by
  intro c hc
  rw [jsTrim] at hc
  have hc1 := trimRight_subset _ c hc
  have hc2 := (List.dropWhile_sublist _).subset hc1
  rcases collapseWs_chars z c hc2 with rfl | ⟨hmem, hws⟩
  · exact normChar_space
  · exact hz c hmem hws

theorem normalizeCore_normChar (nfkd : List Char → List Char) (x : List Char) :
    ∀ c ∈ normalizeCore nfkd x, normChar c = true := by
  rw [normalizeCore]
  apply normChar_jsTrim_collapse
  intro c hc hws
  have hm2 := stripNums_subset _ _ c hc
  have hm3 := stripPcs_subset _ c hm2
  exact normChar_of_keep_not_ws c (List.mem_filter.mp hm3).2 hws

theorem normalizeCore_noWsRun (nfkd : List Char → List Char) (x : List Char) :
    noWsRun (normalizeCore nfkd x) = true := by
  rw [normalizeCore, jsTrim]
  obtain ⟨s, hs, _⟩ := trimRight_append_ws
    ((collapseWs (stripNums true (stripPcs
      (((nfkd (x.map Char.toLower)).filter (fun c => !(isEmojiChar c))).filter
        keepChar)))).dropWhile isJsWs)
  refine noWsRun_append_left _ s ?_
  rw [← hs]
  exact noWsRun_dropWhile isJsWs _ (noWsRun_collapseWs _ _ le_rfl)

theorem hasNum_jsTrim_collapse (z : List Char) (h : hasNum true z = false) :
    hasNum true (jsTrim (collapseWs z)) = false := by
  rw [jsTrim]
  cases hvv : hasNum true (trimRight ((collapseWs z).dropWhile isJsWs)) with
  | false => rfl
  | true =>
    exfalso
    obtain ⟨s, hs, hws⟩ := trimRight_append_ws ((collapseWs z).dropWhile isJsWs)
    have h2 := hasNum_append_ws _ true s hws hvv
    rw [← hs, hasNum_dropWhileWs] at h2
    have h3 := hasNum_collapseWs z.length true z le_rfl h
    rw [h3] at h2
    exact absurd h2 (by simp)

theorem normalizeCore_hasNum (nfkd : List Char → List Char) (x : List Char) :
    hasNum true (normalizeCore nfkd x) = false := by
  rw [normalizeCore]
  exact hasNum_jsTrim_collapse _ (stripNums_no_num _ true _ le_rfl)

/-- Claim C5 counterexample: `normalizeText` is not idempotent.  The non-empty
input `"pcpc"` normalizes to `"pc"` (only the second `"pc"` is followed by a
word boundary, so only it is removed), but normalizing `"pc"` again yields the
empty string — deleting a `pcs`-match can expose a new word-final `"pc"`. -/
theorem C5_counterexample :
    normalizeText (fun l => l) "pcpc".data = some "pc".data ∧
    (normalizeText (fun l => l) "pcpc".data).bind (normalizeText (fun l => l)) ≠
      normalizeText (fun l => l) "pcpc".data := by
  constructor
  · decide
  · decide

/-- Claim C5 (amended): normalization is idempotent on every output that is
non-empty and is itself a fixpoint of the `/\s*pcs?\b/g` deletion: if
`normalizeText(x) = y` with `y` non-empty and `stripPcs y = y`, then
`normalizeText(y) = y` (for any NFKD map that fixes strings over the residual
alphabet `[a-z0-9 ]`, as real NFKD does).  Without the `stripPcs` fixpoint
condition idempotence fails (`"pcpc"`), and an `x` normalizing to the empty
string makes the second application return `null`. -/
theorem C5_theorem (nfkd : List Char → List Char)
    (hnf : ∀ l : List Char, (∀ c ∈ l, normChar c = true) → nfkd l = l)
    (x y : List Char) (hx : normalizeText nfkd x = some y) (hy : y ≠ [])
    (hpc : stripPcs y = y) : normalizeText nfkd y = some y := by
  rw [normalizeText] at hx
  by_cases hx0 : x = []
  · rw [if_pos hx0] at hx
    exact absurd hx (by simp)
  · rw [if_neg hx0] at hx
    have hxy : normalizeCore nfkd x = y := Option.some.inj hx
    have hchar : ∀ c ∈ y, normChar c = true := by
      rw [← hxy]
      exact normalizeCore_normChar nfkd x
    have hrun : noWsRun y = true := by
      rw [← hxy]
      exact normalizeCore_noWsRun nfkd x
    have hnum : hasNum true y = false := by
      rw [← hxy]
      exact normalizeCore_hasNum nfkd x
    rw [normalizeText, if_neg hy]
    refine congrArg some ?_
    have hfe : List.filter (fun c => !(isEmojiChar c)) y = y :=
      List.filter_eq_self.mpr (fun c hc => by
        show (!(isEmojiChar c)) = true
        rw [normChar_not_emoji c (hchar c hc)]
        rfl)
    have hfk : List.filter keepChar y = y :=
      List.filter_eq_self.mpr (fun c hc => normChar_keep c (hchar c hc))
    rw [normalizeCore,
      map_id_of y Char.toLower (fun c hc => toLower_normChar c (hchar c hc)),
      hnf y hchar, hfe, hfk,
      hpc,
      stripNums_of_not_hasNum y true hnum,
      collapse_id y hchar hrun,
      jsTrim]
    have hy2 : normalizeCore nfkd x ≠ [] := by
      rw [hxy]
      exact hy
    have hdw : y.dropWhile isJsWs = y := by
      rw [← hxy]
      exact dropWhile_jsTrim _ hy2
    rw [hdw, ← hxy]
    exact trimRight_jsTrim _

/-- Witness for C5: `"Hello  World!"` normalizes to `"hello world"`, which is
non-empty and `stripPcs`-fixed, and normalizing it again returns it
unchanged. -/
theorem C5_witness :
    normalizeText (fun l => l) "Hello  World!".data = some "hello world".data ∧
    "hello world".data ≠ ([] : List Char) ∧
    stripPcs "hello world".data = "hello world".data ∧
    normalizeText (fun l => l) "hello world".data = some "hello world".data :=
  ⟨by decide, by decide, by decide,
    C5_theorem (fun l => l) (fun l _ => rfl) "Hello  World!".data "hello world".data
      (by decide) (by decide) (by decide)⟩

theorem lev_self : ∀ a : List Char, lev a a = 0 := by
  intro a
  induction a with
  | nil => rfl
  | cons x xs ih => rw [lev_cons, if_pos rfl, ih]

theorem lev_le_max_aux :
    ∀ (n : Nat) (a b : List Char), a.length + b.length ≤ n →
      lev a b ≤ max a.length b.length := by
  intro n
  induction n with
  | zero =>
    intro a b h
    match a, b with
    | [], [] => rfl
    | [], _ :: _ => simp at h
    | _ :: _, b => simp [Nat.add_comm] at h
  | succ n ih =>
    intro a b h
    match a, b with
    | [], b => simp [lev_nil_left]
    | x :: xs, [] => simp [lev_nil_right]
    | x :: xs, y :: ys =>
      rw [lev_cons]
      by_cases hxy : x = y
      · have h1 := ih xs ys (by simp only [List.length_cons] at h; omega)
        rw [if_pos hxy]
        simp only [List.length_cons]
        omega
      · have h1 := ih xs ys (by simp only [List.length_cons] at h; omega)
        have hmin : min (lev xs ys) (min (lev (x :: xs) ys) (lev xs (y :: ys))) ≤ lev xs ys :=
          Nat.min_le_left _ _
        rw [if_neg hxy]
        simp only [List.length_cons]
        omega

theorem lev_le_max (a b : List Char) : lev a b ≤ max a.length b.length :=
  lev_le_max_aux (a.length + b.length) a b le_rfl

/-- Claim C6 counterexample: on two empty inputs the JS expression is
`1 - 0/0 = NaN` (modelled `none`), so the returned score is *not* a number in
`[0, 1]`, contradicting "for all string inputs the returned score lies within
[0,1]". -/
theorem C6_counterexample : similarity [] [] = none := by decide

/-- Claim C6 (amended): `similarity(a, a) = 1` for every non-empty `a`, and
whenever at least one input is non-empty the score is defined via
`1 - editDistance/max(len)` and lies within `[0, 1]`. -/
theorem C6_theorem :
    (∀ a : List Char, a ≠ [] → similarity a a = some 1) ∧
    (∀ a b : List Char, a ≠ [] ∨ b ≠ [] →
      ∃ q : ℚ, similarity a b = some q ∧
        q = 1 - (lev a b : ℚ) / ((max a.length b.length : ℕ) : ℚ) ∧ 0 ≤ q ∧ q ≤ 1) := by
  constructor
  · intro a ha
    have hlen : a.length ≠ 0 := by
      cases a with
      | nil => exact absurd rfl ha
      | cons c r => simp
    rw [similarity]
    rw [if_neg (by simpa using hlen)]
    rw [lev_self]
    simp
  · intro a b hab
    have hm : max a.length b.length ≠ 0 := by
      rcases hab with ha | hb
      · have : a.length ≠ 0 := by cases a <;> simp_all
        omega
      · have : b.length ≠ 0 := by cases b <;> simp_all
        omega
    have hmq : (0 : ℚ) < ((max a.length b.length : ℕ) : ℚ) := by
      exact_mod_cast Nat.pos_of_ne_zero hm
    have hd : (lev a b : ℚ) ≤ ((max a.length b.length : ℕ) : ℚ) := by
      exact_mod_cast lev_le_max a b
    have hd0 : (0 : ℚ) ≤ (lev a b : ℚ) := by positivity
    refine ⟨_, by rw [similarity, if_neg hm], rfl, ?_, ?_⟩
    · have : (lev a b : ℚ) / ((max a.length b.length : ℕ) : ℚ) ≤ 1 :=
        (div_le_one hmq).mpr hd
      linarith
    · have : 0 ≤ (lev a b : ℚ) / ((max a.length b.length : ℕ) : ℚ) :=
        div_nonneg hd0 (le_of_lt hmq)
      linarith

/-- Witness for C6: concrete instances of both conjuncts. -/
theorem C6_witness :
    similarity "taco".data "taco".data = some 1 ∧
    (∃ q : ℚ, similarity "ab".data "xyz".data = some q ∧
      q = 1 - (lev "ab".data "xyz".data : ℚ) /
        ((max "ab".data.length "xyz".data.length : ℕ) : ℚ) ∧ 0 ≤ q ∧ q ≤ 1) :=
  ⟨C6_theorem.1 "taco".data (by decide),
   C6_theorem.2 "ab".data "xyz".data (Or.inl (by decide))⟩

/-! ## Lemmas about the query compiler -/

theorem groupColsOf_fst (gb : List Dim) :
    ∀ acc : List Expr × Option Expr,
      (gb.foldl
        (fun acc dim =>
          match dim with
          | .location => (acc.1 ++ [Expr.storeId], acc.2)
          | .product => (acc.1 ++ [Expr.canonicalItemName], acc.2)
          | .category => (acc.1 ++ [Expr.canonicalCategoryName], acc.2)
          | .date => (acc.1 ++ [Expr.dateDay], some Expr.dateDay)
          | .hour => (acc.1 ++ [Expr.dateDay], some Expr.dateTruncHour)
          | .fulfillment_method => (acc.1 ++ [Expr.fulfillmentMethod], acc.2)
          | .provider => (acc.1 ++ [Expr.provider], acc.2))
        acc).1 = acc.1 ++ gb.map pushOf := by
  induction gb with
  | nil => intro acc; simp
  | cons d rest ih =>
    intro acc
    cases d <;> simp [List.foldl_cons, ih, pushOf]

theorem groupColsOf_eq (gb : List Dim) : (groupColsOf gb).1 = gb.map pushOf := by
  have := groupColsOf_fst gb ([], none)
  simpa [groupColsOf] using this

theorem groupColsOf_snd_of_no_time (gb : List Dim)
    (hd : Dim.date ∉ gb) (hh : Dim.hour ∉ gb) :
    ∀ acc : List Expr × Option Expr,
      (gb.foldl
        (fun acc dim =>
          match dim with
          | .location => (acc.1 ++ [Expr.storeId], acc.2)
          | .product => (acc.1 ++ [Expr.canonicalItemName], acc.2)
          | .category => (acc.1 ++ [Expr.canonicalCategoryName], acc.2)
          | .date => (acc.1 ++ [Expr.dateDay], some Expr.dateDay)
          | .hour => (acc.1 ++ [Expr.dateDay], some Expr.dateTruncHour)
          | .fulfillment_method => (acc.1 ++ [Expr.fulfillmentMethod], acc.2)
          | .provider => (acc.1 ++ [Expr.provider], acc.2))
        acc).2 = acc.2 := by
  induction gb with
  | nil => intro acc; simp
  | cons d rest ih =>
    intro acc
    have hd2 : Dim.date ∉ rest := fun h => hd (List.mem_cons_of_mem _ h)
    have hh2 : Dim.hour ∉ rest := fun h => hh (List.mem_cons_of_mem _ h)
    cases d with
    | date => exact absurd (List.mem_cons_self _ _) hd
    | hour => exact absurd (List.mem_cons_self _ _) hh
    | location => simp [List.foldl_cons, ih hd2 hh2]
    | product => simp [List.foldl_cons, ih hd2 hh2]
    | category => simp [List.foldl_cons, ih hd2 hh2]
    | fulfillment_method => simp [List.foldl_cons, ih hd2 hh2]
    | provider => simp [List.foldl_cons, ih hd2 hh2]

theorem pushOf_ne_hour (d : Dim) : pushOf d ≠ Expr.dateTruncHour := by
  cases d <;> simp [pushOf]

theorem mem_setKey_self (l : List (String × Expr)) (k : String) (v : Expr) :
    (k, v) ∈ setKey l k v := by
  rw [setKey]
  by_cases h : l.any (fun p => p.1 = k)
  · rw [if_pos h]
    simp only [List.any_eq_true, decide_eq_true_eq] at h
    obtain ⟨p, hp, hpk⟩ := h
    exact List.mem_map.mpr ⟨p, hp, by rw [if_pos hpk]⟩
  · rw [if_neg h]
    exact List.mem_append_right _ (List.mem_singleton_self _)

theorem mem_setKey_of_ne (l : List (String × Expr)) (k k' : String) (v v' : Expr)
    (hmem : (k', v') ∈ l) (hne : k' ≠ k) : (k', v') ∈ setKey l k v := by
  rw [setKey]
  by_cases h : l.any (fun p => p.1 = k)
  · rw [if_pos h]
    exact List.mem_map.mpr ⟨(k', v'), hmem, by simp [hne]⟩
  · rw [if_neg h]
    exact List.mem_append_left _ hmem

theorem mem_keys_setKey (l : List (String × Expr)) (k : String) (v : Expr) (x : String)
    (hx : x ∈ (setKey l k v).map Prod.fst) : x ∈ l.map Prod.fst ∨ x = k := by
  rw [setKey] at hx
  by_cases h : l.any (fun p => p.1 = k)
  · rw [if_pos h] at hx
    rw [List.map_map] at hx
    obtain ⟨p, hp, hpx⟩ := List.mem_map.mp hx
    by_cases hpk : p.1 = k
    · right
      simp only [Function.comp, if_pos hpk] at hpx
      exact hpx ▸ rfl
    · left
      simp only [Function.comp, if_neg hpk] at hpx
      exact hpx ▸ List.mem_map_of_mem _ hp
  · rw [if_neg h] at hx
    rw [List.map_append] at hx
    rcases List.mem_append.mp hx with h1 | h1
    · exact Or.inl h1
    · right
      simpa using h1

theorem keys_step (s : List (String × Expr)) (S : List String) (k : String) (v : Expr)
    (c : Bool) (hs : ∀ x ∈ s.map Prod.fst, x ∈ S) (hk : k ∈ S) :
    ∀ x ∈ (if c then setKey s k v else s).map Prod.fst, x ∈ S := by
  intro x hx
  cases c with
  | false => exact hs x hx
  | true =>
    simp only [if_pos] at hx
    rcases mem_keys_setKey s k v x hx with h | rfl
    · exact hs x h
    · exact hk

theorem mem_step_of_ne (s : List (String × Expr)) (k k' : String) (v v' : Expr) (c : Bool)
    (hmem : (k', v') ∈ s) (hne : k' ≠ k) :
    (k', v') ∈ (if c then setKey s k v else s) := by
  cases c with
  | false => exact hmem
  | true => exact mem_setKey_of_ne s k k' v v' hmem hne

/-- The keys of any select shape come from the fixed seven-name list (in
particular `canonical_name` is never among them). -/
theorem selectShape_keys (m : Metric) (gb : List Dim) :
    ∀ x ∈ (selectShapeOf m gb).map Prod.fst,
      x ∈ ["value", "store_id", "product", "category", "created_at",
           "fulfillment_method", "provider"] := by
  rw [selectShapeOf]
  apply keys_step
  apply keys_step
  apply keys_step
  apply keys_step
  apply keys_step
  apply keys_step
  apply keys_step
  · intro x hx
    simp only [List.map_cons, List.map_nil, List.mem_singleton] at hx
    simp [hx]
  all_goals simp

/-- Claim C1 counterexample: compiling `{metric: items_sold, groupBy:
[category]}` with no filters yields a plan with *no* join to the orders
table (the claim asserts the join is present even with no order-level
filter), while the stated premises hold. -/
theorem C1_counterexample :
    (buildQueryPlan { metric := .items_sold, groupBy := [.category], filters := {} }).joins.all
        (fun j => j.table ≠ Table.orders) = true ∧
    (buildQueryPlan { metric := .items_sold, groupBy := [.category], filters := {} }).joins =
      [⟨.left, .canonicalCategories⟩] := by
  constructor
  · decide
  · decide

/-- Claim C1 (amended): for every intent with metric `items_sold` and
`groupBy = [category]`, the plan starts from the line-items relation, joins
the canonical-categories table and groups by the canonical category name; it
joins the orders table exactly when an order-level filter key (`locations`,
`fulfillmentMethods`, `date_range`, `providers`) is present. -/
theorem C1_theorem (i : QueryIntent) (hm : i.metric = .items_sold)
    (hg : i.groupBy = [.category]) :
    (buildQueryPlan i).fromTable = .orderItems ∧
    Join.mk .left .canonicalCategories ∈ (buildQueryPlan i).joins ∧
    (buildQueryPlan i).groupByCols = [Expr.canonicalCategoryName] ∧
    (buildQueryPlan i).joins.any (fun j => j.table = Table.orders) =
      (i.filters.locations.isSome || i.filters.fulfillmentMethods.isSome ||
       i.filters.date_range.isSome || i.filters.providers.isSome) := by
  obtain ⟨m, gb, f, lim, sb, so⟩ := i
  simp only at hm hg
  subst hm hg
  refine ⟨rfl, ?_, ?_, ?_⟩
  · simp only [buildQueryPlan, joinsOf]
    apply List.mem_append_right
    simp
  · simp [buildQueryPlan, groupColsOf_eq, pushOf]
  · obtain ⟨fdr, floc, fful, fcat, fprod, fprov⟩ := f
    simp only [buildQueryPlan, joinsOf, needOrdersJoin]
    simp only [List.any_append]
    cases floc <;> cases fful <;> cases fdr <;> cases fprov <;> simp

/-- Witness for C1: the amended statement instantiated at an intent with a
`date_range` filter, where the orders join is present. -/
theorem C1_witness :
    (buildQueryPlan { metric := .items_sold, groupBy := [.category], filters := { date_range := some ⟨"2024-03-01", "2024-03-10"⟩ } }).fromTable
      = .orderItems ∧
    Join.mk .left .canonicalCategories ∈
      (buildQueryPlan { metric := .items_sold, groupBy := [.category], filters := { date_range := some ⟨"2024-03-01", "2024-03-10"⟩ } }).joins ∧
    (buildQueryPlan { metric := .items_sold, groupBy := [.category], filters := { date_range := some ⟨"2024-03-01", "2024-03-10"⟩ } }).groupByCols
      = [Expr.canonicalCategoryName] ∧
    (buildQueryPlan { metric := .items_sold, groupBy := [.category], filters := { date_range := some ⟨"2024-03-01", "2024-03-10"⟩ } }).joins.any
        (fun j => j.table = Table.orders) = true :=
  C1_theorem _ rfl rfl

/-- Claim C3 counterexample: for `groupBy = [hour]` the plan's group-by
column is the *day*-truncated timestamp `date(created_at)`, not the
hour-truncated one the claim asserts. -/
theorem C3_counterexample :
    (buildQueryPlan { metric := .revenue, groupBy := [.hour], filters := {} }).groupByCols
      = [Expr.dateDay] ∧
    Expr.dateTruncHour ∉
      (buildQueryPlan { metric := .revenue, groupBy := [.hour], filters := {} }).groupByCols := by
  constructor
  · decide
  · decide

/-- Claim C3 (amended): `date` in `groupBy` groups by the day-truncated
timestamp; `hour` in `groupBy` *also* pushes the day-truncated timestamp as
its group-by column — the hour truncation never appears among the group-by
columns of any plan — while the selected `created_at` column (the value the
visible label is built from) is the hour-truncated timestamp. -/
theorem C3_theorem :
    (∀ i : QueryIntent, Dim.date ∈ i.groupBy →
      Expr.dateDay ∈ (buildQueryPlan i).groupByCols) ∧
    (∀ i : QueryIntent, Dim.hour ∈ i.groupBy →
      Expr.dateDay ∈ (buildQueryPlan i).groupByCols ∧
      ("created_at", Expr.dateTruncHour) ∈ (buildQueryPlan i).selectShape) ∧
    (∀ i : QueryIntent, Expr.dateTruncHour ∉ (buildQueryPlan i).groupByCols) := by
  refine ⟨?_, ?_, ?_⟩
  · intro i hd
    simp only [buildQueryPlan, groupColsOf_eq]
    exact List.mem_map.mpr ⟨.date, hd, rfl⟩
  · intro i hh
    constructor
    · simp only [buildQueryPlan, groupColsOf_eq]
      exact List.mem_map.mpr ⟨.hour, hh, rfl⟩
    · show ("created_at", Expr.dateTruncHour) ∈ selectShapeOf i.metric i.groupBy
      rw [selectShapeOf]
      have hc : i.groupBy.contains .hour = true := List.elem_eq_true_of_mem hh
      apply mem_step_of_ne _ _ _ _ _ _ _ (by decide)
      apply mem_step_of_ne _ _ _ _ _ _ _ (by decide)
      rw [if_pos hc]
      exact mem_setKey_self _ _ _
  · intro i hmem
    simp only [buildQueryPlan, groupColsOf_eq] at hmem
    obtain ⟨d, _, hd⟩ := List.mem_map.mp hmem
    exact pushOf_ne_hour d hd

/-- Witness for C3: the amended statement instantiated at concrete intents
grouping by `date` and by `hour`. -/
theorem C3_witness :
    Expr.dateDay ∈
      (buildQueryPlan { metric := .revenue, groupBy := [.date], filters := {} }).groupByCols ∧
    ("created_at", Expr.dateTruncHour) ∈
      (buildQueryPlan { metric := .revenue, groupBy := [.hour], filters := {} }).selectShape ∧
    Expr.dateTruncHour ∉
      (buildQueryPlan { metric := .revenue, groupBy := [.hour], filters := {} }).groupByCols :=
  ⟨C3_theorem.1 _ (by decide),
   (C3_theorem.2.1 _ (by decide)).2,
   C3_theorem.2.2 _⟩

/-- Claim C4 counterexample: with `sortBy: name` and no product grouping the
compiled plan *does* carry an order-by clause (on the canonical item name of
a table the plan never joins), contradicting "the plan simply carries no
order-by clause for that target". -/
theorem C4_counterexample :
    (buildQueryPlan { metric := .revenue, groupBy := [.location], filters := {}, sortBy := some .name }).orderBy = some (Expr.canonicalItemName, .asc) ∧
    (buildQueryPlan { metric := .revenue, groupBy := [.location], filters := {}, sortBy := some .name }).joins.all
        (fun j => j.table ≠ Table.canonicalItems) = true := by
  constructor
  · decide
  · decide

/-- Claim C4 (amended): the silent no-op happens only for `sortBy: date`
when the plan has no `date`/`hour` grouping (then no order-by is emitted and
compilation succeeds); `sortBy: name` always emits an order-by on the
canonical item name, even when `groupBy` contains no `product`. -/
theorem C4_theorem :
    (∀ i : QueryIntent, i.sortBy = some .date → Dim.date ∉ i.groupBy →
      Dim.hour ∉ i.groupBy → (buildQueryPlan i).orderBy = none) ∧
    (∀ i : QueryIntent, i.sortBy = some .name →
      (buildQueryPlan i).orderBy =
        some (Expr.canonicalItemName, if i.sortOrder = some .desc then .desc else .asc)) := by
  constructor
  · intro i hsb hd hh
    have hgbte : (groupColsOf i.groupBy).2 = none := by
      rw [groupColsOf]
      exact groupColsOf_snd_of_no_time i.groupBy hd hh ([], none)
    simp [buildQueryPlan, orderByOf, hsb, hgbte]
  · intro i hsb
    simp [buildQueryPlan, orderByOf, hsb]

/-- Witness for C4: the amended statement instantiated at concrete intents. -/
theorem C4_witness :
    (buildQueryPlan { metric := .revenue, groupBy := [.location], filters := {}, sortBy := some .date }).orderBy = none ∧
    (buildQueryPlan { metric := .revenue, groupBy := [.location], filters := {}, sortBy := some .name }).orderBy = some (Expr.canonicalItemName, .asc) :=
  ⟨C4_theorem.1 _ rfl (by decide) (by decide),
   C4_theorem.2 { metric := .revenue, groupBy := [.location], filters := {}, sortBy := some .name } rfl⟩

/-- Claim C9: a `date_range` filter compiles to the inclusive condition
`start ≤ created_at ≤ end-of-day(end)`; with `end = "2024-03-10"` the upper
bound is 2024-03-10 23:59:59.999 UTC — the last representable instant of
March 10 at the millisecond resolution of a JS `Date` — one millisecond
before 2024-03-11 00:00:00 UTC, and the lower bound is the first instant of
the start date. -/
theorem C9_theorem (i : QueryIntent) (s e : String)
    (hf : i.filters.date_range = some ⟨s, e⟩) :
    Cond.dateRange (parseDateUTC s) (setEndOfDayUTC (parseDateUTC e)) ∈
      (buildQueryPlan i).whereConds ∧
    (∀ t : Int,
      tsSatisfies (Cond.dateRange (parseDateUTC s) (setEndOfDayUTC (parseDateUTC e))) t = true ↔
        parseDateUTC s ≤ t ∧ t ≤ setEndOfDayUTC (parseDateUTC e)) ∧
    setEndOfDayUTC (parseDateUTC "2024-03-10") = utcMs 2024 3 10 23 59 59 999 ∧
    utcMs 2024 3 10 23 59 59 999 + 1 = utcMs 2024 3 11 0 0 0 0 ∧
    parseDateUTC "2024-03-01" = utcMs 2024 3 1 0 0 0 0 := by
  refine ⟨?_, ?_, by decide, by decide, by decide⟩
  · show _ ∈ whereOf i.filters
    rw [whereOf, hf]
    exact List.mem_append_left _ (List.mem_append_left _ (List.mem_append_left _
      (List.mem_append_left _ (List.mem_append_left _ (List.mem_singleton_self _)))))
  · intro t
    simp [tsSatisfies]

/-- Witness for C9: concrete filter `2024-03-01 .. 2024-03-10` together with
checks that noon of March 10 satisfies the compiled condition while March 11
midnight does not and the start's first instant does. -/
theorem C9_witness :
    (Cond.dateRange (parseDateUTC "2024-03-01") (setEndOfDayUTC (parseDateUTC "2024-03-10")) ∈
      (buildQueryPlan { metric := .revenue, groupBy := [.date], filters := { date_range := some ⟨"2024-03-01", "2024-03-10"⟩ } }).whereConds) ∧
    tsSatisfies
      (Cond.dateRange (parseDateUTC "2024-03-01") (setEndOfDayUTC (parseDateUTC "2024-03-10")))
      (utcMs 2024 3 10 12 0 0 0) = true ∧
    tsSatisfies
      (Cond.dateRange (parseDateUTC "2024-03-01") (setEndOfDayUTC (parseDateUTC "2024-03-10")))
      (utcMs 2024 3 11 0 0 0 0) = false ∧
    tsSatisfies
      (Cond.dateRange (parseDateUTC "2024-03-01") (setEndOfDayUTC (parseDateUTC "2024-03-10")))
      (utcMs 2024 3 1 0 0 0 0) = true := by
  have h := C9_theorem { metric := .revenue, groupBy := [.date], filters := { date_range := some ⟨"2024-03-01", "2024-03-10"⟩ } } "2024-03-01" "2024-03-10" rfl
  refine ⟨h.1, ?_, ?_, ?_⟩
  · exact (h.2.1 _).mpr (by decide)
  · decide
  · exact (h.2.1 _).mpr (by decide)

/-- Claim C2: the plan publishes the canonical name under the result keys
`product` / `category`, but `transformQueryResult` builds the display name
only from `store_id`, `canonical_name`, `fulfillment_method`, `provider` and
`created_at` — no plan ever selects a `canonical_name` key — so a row grouped
solely by `product` (or solely by `category`) gets the fallback name
`"Total"`. -/
theorem C2_theorem :
    (∀ i : QueryIntent, "canonical_name" ∉ selectKeys i) ∧
    (∀ i : QueryIntent, Dim.product ∈ i.groupBy →
      ("product", Expr.canonicalItemName) ∈ (buildQueryPlan i).selectShape) ∧
    (∀ i : QueryIntent, Dim.category ∈ i.groupBy →
      ("category", Expr.canonicalCategoryName) ∈ (buildQueryPlan i).selectShape) ∧
    (∀ (i : QueryIntent) (fmt : String → String) (toNum : String → Option ℚ)
       (row : String → Option String),
      i.groupBy = [.product] ∨ i.groupBy = [.category] →
      (∀ k, (row k).isSome → k ∈ selectKeys i) →
      (transformRow fmt toNum i.groupBy row).1 = "Total") := by
  refine ⟨?_, ?_, ?_, ?_⟩
  · intro i hmem
    have := selectShape_keys i.metric i.groupBy "canonical_name" hmem
    simp at this
  · intro i hp
    show ("product", Expr.canonicalItemName) ∈ selectShapeOf i.metric i.groupBy
    rw [selectShapeOf]
    have hc : i.groupBy.contains .product = true := List.elem_eq_true_of_mem hp
    apply mem_step_of_ne _ _ _ _ _ _ _ (by decide)
    apply mem_step_of_ne _ _ _ _ _ _ _ (by decide)
    apply mem_step_of_ne _ _ _ _ _ _ _ (by decide)
    apply mem_step_of_ne _ _ _ _ _ _ _ (by decide)
    apply mem_step_of_ne _ _ _ _ _ _ _ (by decide)
    rw [if_pos hc]
    exact mem_setKey_self _ _ _
  · intro i hp
    show ("category", Expr.canonicalCategoryName) ∈ selectShapeOf i.metric i.groupBy
    rw [selectShapeOf]
    have hc : i.groupBy.contains .category = true := List.elem_eq_true_of_mem hp
    apply mem_step_of_ne _ _ _ _ _ _ _ (by decide)
    apply mem_step_of_ne _ _ _ _ _ _ _ (by decide)
    apply mem_step_of_ne _ _ _ _ _ _ _ (by decide)
    apply mem_step_of_ne _ _ _ _ _ _ _ (by decide)
    rw [if_pos hc]
    exact mem_setKey_self _ _ _
  · intro i fmt toNum row hgb hrow
    have hkeys : selectKeys i = ["value", "product"] ∨ selectKeys i = ["value", "category"] := by
      obtain ⟨m, gb, f, lim, sb, so⟩ := i
      rcases hgb with h | h <;> simp only at h <;> subst h
      · left
        show (selectShapeOf m [Dim.product]).map Prod.fst = _
        cases m <;> decide
      · right
        show (selectShapeOf m [Dim.category]).map Prod.fst = _
        cases m <;> decide
    have hnone : ∀ k : String, k ≠ "value" → k ≠ "product" → k ≠ "category" → row k = none := by
      intro k h1 h2 h3
      cases hk : row k with
      | none => rfl
      | some v =>
        have hmem := hrow k (by simp [hk])
        rcases hkeys with he | he <;> rw [he] at hmem <;> simp at hmem <;> tauto
    have h1 : row "store_id" = none := hnone _ (by decide) (by decide) (by decide)
    have h2 : row "canonical_name" = none := hnone _ (by decide) (by decide) (by decide)
    have h3 : row "fulfillment_method" = none := hnone _ (by decide) (by decide) (by decide)
    have h4 : row "provider" = none := hnone _ (by decide) (by decide) (by decide)
    have h5 : row "created_at" = none := hnone _ (by decide) (by decide) (by decide)
    rcases hgb with h | h <;>
      simp [transformRow, transformName, h, h1, h2, h3, h4, h5, truthyStr]

/-- Witness for C2: a concrete `items_sold`-by-product intent and a row
carrying only the selected keys; the transformed name is `"Total"`. -/
theorem C2_witness :
    "canonical_name" ∉ selectKeys { metric := .items_sold, groupBy := [.product], filters := {} } ∧
    ("product", Expr.canonicalItemName) ∈
      (buildQueryPlan { metric := .items_sold, groupBy := [.product], filters := {} }).selectShape ∧
    (transformRow (fun _ => "") (fun _ => none) [.product]
      (fun k => if k = "value" then some "7" else none)).1 = "Total" :=
  ⟨C2_theorem.1 _,
   C2_theorem.2.1 _ (by decide),
   C2_theorem.2.2.2 { metric := .items_sold, groupBy := [.product], filters := {} }
     (fun _ => "") (fun _ => none) (fun k => if k = "value" then some "7" else none)
     (Or.inl rfl)
     (by
       intro k hk
       by_cases hkv : k = "value"
       · subst hkv
         show "value" ∈ selectKeys { metric := .items_sold, groupBy := [.product], filters := {} }
         decide
       · simp only [if_neg hkv, Option.isSome_none] at hk
         exact absurd hk (by decide))⟩

/-! ## Lemmas about the canonical resolver -/

theorem bestOf_foldlM (n : List Char) :
    ∀ (entries : List CanonicalEntity) (acc : Option CanonicalEntity × ℚ),
      (∀ e ∈ entries, e.normalizedName ≠ none) →
      (entries.foldlM
        (fun acc e =>
          match e.normalizedName with
          | none => .error .typeError
          | some nm =>
            match similarity n nm with
            | none => .ok acc
            | some score => .ok (if acc.2 < score then (some e, score) else acc))
        acc : Except ResolveErr (Option CanonicalEntity × ℚ)) = .ok (bestFold n entries acc) := by
  intro entries
  induction entries with
  | nil =>
    intro acc h
    simp only [List.foldlM_nil, bestFold]
    rfl
  | cons e es ih =>
    intro acc h
    have he : e.normalizedName ≠ none := h e (List.mem_cons_self _ _)
    have hes : ∀ e' ∈ es, e'.normalizedName ≠ none :=
      fun e' h' => h e' (List.mem_cons_of_mem _ h')
    rw [List.foldlM_cons, bestFold]
    cases hnm : e.normalizedName with
    | none => exact absurd hnm he
    | some nm =>
      cases hsim : similarity n nm with
      | none =>
        simp only [bestStep, hnm, hsim]
        exact ih acc hes
      | some score =>
        simp only [bestStep, hnm, hsim]
        exact ih _ hes

theorem bestOf_eq (n : List Char) (entries : List CanonicalEntity)
    (h : ∀ e ∈ entries, e.normalizedName ≠ none) :
    bestOf n entries = .ok (bestFold n entries (none, 0)) :=
  bestOf_foldlM n entries (none, 0) h

theorem bestStep_none (n : List Char) (acc : Option CanonicalEntity × ℚ)
    (e : CanonicalEntity) (hnm : e.normalizedName = none) :
    bestStep n acc e = acc := by
  rw [bestStep, hnm]

theorem bestStep_nan (n : List Char) (acc : Option CanonicalEntity × ℚ)
    (e : CanonicalEntity) (nm : List Char) (hnm : e.normalizedName = some nm)
    (hsim : similarity n nm = none) : bestStep n acc e = acc := by
  rw [bestStep, hnm]
  dsimp only
  rw [hsim]

theorem bestStep_score (n : List Char) (acc : Option CanonicalEntity × ℚ)
    (e : CanonicalEntity) (nm : List Char) (sc : ℚ) (hnm : e.normalizedName = some nm)
    (hsim : similarity n nm = some sc) :
    bestStep n acc e = if acc.2 < sc then (some e, sc) else acc := by
  rw [bestStep, hnm]
  dsimp only
  rw [hsim]

theorem bestStep_le (n : List Char) (acc : Option CanonicalEntity × ℚ)
    (e : CanonicalEntity) : acc.2 ≤ (bestStep n acc e).2 := by
  rcases hnm : e.normalizedName with _ | nm
  · rw [bestStep_none n acc e hnm]
  · rcases hsim : similarity n nm with _ | score
    · rw [bestStep_nan n acc e nm hnm hsim]
    · rw [bestStep_score n acc e nm score hnm hsim]
      by_cases hlt : acc.2 < score
      · rw [if_pos hlt]; exact le_of_lt hlt
      · rw [if_neg hlt]

theorem bestStep_cases (n : List Char) (acc : Option CanonicalEntity × ℚ)
    (e : CanonicalEntity) :
    bestStep n acc e = acc ∨
      ∃ nm sc, e.normalizedName = some nm ∧ similarity n nm = some sc ∧
        bestStep n acc e = (some e, sc) := by
  rcases hnm : e.normalizedName with _ | nm
  · exact Or.inl (bestStep_none n acc e hnm)
  · rcases hsim : similarity n nm with _ | score
    · exact Or.inl (bestStep_nan n acc e nm hnm hsim)
    · rw [bestStep_score n acc e nm score hnm hsim]
      by_cases hlt : acc.2 < score
      · rw [if_pos hlt]
        exact Or.inr ⟨nm, score, rfl, hsim, rfl⟩
      · rw [if_neg hlt]
        exact Or.inl rfl

theorem bestStep_ge (n : List Char) (acc : Option CanonicalEntity × ℚ)
    (e : CanonicalEntity) (nm : List Char) (sc : ℚ)
    (hnm : e.normalizedName = some nm) (hsim : similarity n nm = some sc) :
    sc ≤ (bestStep n acc e).2 := by
  rw [bestStep_score n acc e nm sc hnm hsim]
  by_cases hlt : acc.2 < sc
  · rw [if_pos hlt]
  · rw [if_neg hlt]
    exact le_of_not_lt hlt

theorem bestFold_le (n : List Char) :
    ∀ (es : List CanonicalEntity) (acc : Option CanonicalEntity × ℚ),
      acc.2 ≤ (bestFold n es acc).2 := by
  intro es
  induction es with
  | nil => intro acc; rw [bestFold]
  | cons e es ih =>
    intro acc
    rw [bestFold]
    exact le_trans (bestStep_le n acc e) (ih _)

theorem bestFold_ge (n : List Char) :
    ∀ (es : List CanonicalEntity) (acc : Option CanonicalEntity × ℚ)
      (e : CanonicalEntity) (nm : List Char) (sc : ℚ),
      e ∈ es → e.normalizedName = some nm → similarity n nm = some sc →
      sc ≤ (bestFold n es acc).2 := by
  intro es
  induction es with
  | nil => intro acc e nm sc h; simp at h
  | cons e0 es ih =>
    intro acc e nm sc hmem hnm hsim
    rw [bestFold]
    rcases List.mem_cons.mp hmem with rfl | hmem2
    · exact le_trans (bestStep_ge n acc e nm sc hnm hsim) (bestFold_le n es _)
    · exact ih _ e nm sc hmem2 hnm hsim

theorem bestFold_cases (n : List Char) :
    ∀ (es : List CanonicalEntity) (acc : Option CanonicalEntity × ℚ),
      bestFold n es acc = acc ∨
      ∃ e ∈ es, ∃ nm sc, e.normalizedName = some nm ∧ similarity n nm = some sc ∧
        bestFold n es acc = (some e, sc) := by
  intro es
  induction es with
  | nil => intro acc; left; rw [bestFold]
  | cons e0 es ih =>
    intro acc
    rw [bestFold]
    rcases ih (bestStep n acc e0) with h | ⟨e, hmem, nm, sc, h1, h2, h3⟩
    · rw [h]
      rcases bestStep_cases n acc e0 with h0 | ⟨nm, sc, h1, h2, h3⟩
      · exact Or.inl h0
      · exact Or.inr ⟨e0, List.mem_cons_self _ _, nm, sc, h1, h2, h3⟩
    · exact Or.inr ⟨e, List.mem_cons_of_mem _ hmem, nm, sc, h1, h2, h3⟩

theorem resolve_exact (nfkd : List Char → List Char) (env : StoreEnv) (st : Store)
    (raw : List Char) (ty : EntityType) (thr : Option ℚ) (cid : Nat)
    (hraw : raw ≠ []) (hl : lookupMapping st ty (normalizeCore nfkd raw) = some cid) :
    resolveCanonical nfkd env st raw ty thr = .ok (some cid, st) := by
  rw [resolveCanonical, if_neg hraw]
  simp only [hl]

theorem resolve_fuzzy (nfkd : List Char → List Char) (env : StoreEnv) (st : Store)
    (raw : List Char) (ty : EntityType) (thr : Option ℚ)
    (best : CanonicalEntity) (bs : ℚ)
    (hraw : raw ≠ [])
    (hl : lookupMapping st ty (normalizeCore nfkd raw) = none)
    (hb : bestOf (normalizeCore nfkd raw) (canonicalsOf st ty) = .ok (some best, bs))
    (hth : thresholdOf ty thr ≤ bs) :
    resolveCanonical nfkd env st raw ty thr =
      .ok (some best.id,
        if env.failMappingInsert then st
        else addMapping st ty
          ⟨raw, normalizeCore nfkd raw, best.id, "fuzzy", bs⟩) := by
  rw [resolveCanonical, if_neg hraw]
  simp only [hl, hb, if_pos hth]

theorem resolve_createNew (nfkd : List Char → List Char) (env : StoreEnv) (st : Store)
    (raw : List Char) (ty : EntityType) (thr : Option ℚ)
    (bm : Option CanonicalEntity) (bs : ℚ)
    (hraw : raw ≠ [])
    (hl : lookupMapping st ty (normalizeCore nfkd raw) = none)
    (hb : bestOf (normalizeCore nfkd raw) (canonicalsOf st ty) = .ok (bm, bs))
    (hcr : bm = none ∨ bs < thresholdOf ty thr) :
    resolveCanonical nfkd env st raw ty thr =
      createNew nfkd env st raw ty (normalizeCore nfkd raw) := by
  rw [resolveCanonical, if_neg hraw]
  simp only [hl, hb]
  cases bm with
  | none => dsimp only
  | some best =>
    have hbs : bs < thresholdOf ty thr := by
      rcases hcr with h | h
      · exact absurd h (by simp)
      · exact h
    dsimp only
    rw [if_neg (not_le.mpr hbs)]

theorem createNew_ok (nfkd : List Char → List Char) (env : StoreEnv) (st : Store)
    (raw : List Char) (ty : EntityType) (normalized : List Char)
    (hins : env.failCanonicalInsert = false) :
    createNew nfkd env st raw ty normalized =
      .ok (some st.nextId, createdState nfkd env st raw ty normalized) := by
  rw [createNew, if_neg (by rw [hins]; exact Bool.false_ne_true)]
  rfl

theorem createNew_err (nfkd : List Char → List Char) (env : StoreEnv) (st : Store)
    (raw : List Char) (ty : EntityType) (normalized : List Char)
    (hins : env.failCanonicalInsert = true) :
    createNew nfkd env st raw ty normalized = .error .storeError := by
  rw [createNew, if_pos hins]

theorem mappingsOf_addMapping (st : Store) (ty : EntityType) (m : Mapping) :
    mappingsOf (addMapping st ty m) ty = mappingsOf st ty ++ [m] := by
  cases ty <;> rfl

theorem canonicalsOf_addMapping (st : Store) (ty : EntityType) (m : Mapping) :
    canonicalsOf (addMapping st ty m) ty = canonicalsOf st ty := by
  cases ty <;> rfl

theorem mappingsOf_addCanonical (st : Store) (ty : EntityType) (e : CanonicalEntity) :
    mappingsOf (addCanonical st ty e) ty = mappingsOf st ty := by
  cases ty <;> rfl

theorem mappingsOf_nextId (st : Store) (ty : EntityType) (k : Nat) :
    mappingsOf { st with nextId := k } ty = mappingsOf st ty := by
  cases ty <;> rfl

/-- With pairwise-distinct keys (the uniqueness constraint on the mapping
table), a failed `.single()` lookup means the filter selected no row at
all. -/
theorem filter_eq_nil_of_lookup_none (st : Store) (ty : EntityType) (N : List Char)
    (hwf : (mappingsOf st ty).Pairwise
      (fun m1 m2 => m1.normalizedRawName ≠ m2.normalizedRawName))
    (hl : lookupMapping st ty N = none) :
    (mappingsOf st ty).filter (fun m => m.normalizedRawName = N) = [] := by
  rw [lookupMapping] at hl
  rcases hfe : (mappingsOf st ty).filter (fun m => m.normalizedRawName = N) with _ | ⟨m1, tl⟩
  · exact hfe
  · exfalso
    rcases htl : tl with _ | ⟨m2, tl2⟩
    · rw [htl] at hfe
      rw [hfe] at hl
      exact Option.some_ne_none _ hl
    · have h1 : m1 ∈ (mappingsOf st ty).filter (fun m => m.normalizedRawName = N) := by
        rw [hfe]; exact List.mem_cons_self _ _
      have h2 : m2 ∈ (mappingsOf st ty).filter (fun m => m.normalizedRawName = N) := by
        rw [hfe, htl]; exact List.mem_cons_of_mem _ (List.mem_cons_self _ _)
      have hk1 : m1.normalizedRawName = N := by
        simpa using (List.mem_filter.mp h1).2
      have hk2 : m2.normalizedRawName = N := by
        simpa using (List.mem_filter.mp h2).2
      have hsub : List.Sublist
          ((mappingsOf st ty).filter (fun m => m.normalizedRawName = N))
          (mappingsOf st ty) := List.filter_sublist _
      have hpf : ((mappingsOf st ty).filter
          (fun m => m.normalizedRawName = N)).Pairwise
          (fun m1 m2 => m1.normalizedRawName ≠ m2.normalizedRawName) :=
        hwf.sublist hsub
      rw [hfe, htl] at hpf
      have := (List.pairwise_cons.mp hpf).1 m2 (List.mem_cons_self _ _)
      exact this (hk1.trans hk2.symm)

theorem lookup_after_insert (st : Store) (ty : EntityType) (N : List Char) (m : Mapping)
    (hwf : (mappingsOf st ty).Pairwise
      (fun m1 m2 => m1.normalizedRawName ≠ m2.normalizedRawName))
    (hl : lookupMapping st ty N = none)
    (hkey : m.normalizedRawName = N) :
    lookupMapping (addMapping st ty m) ty N = some m.canonicalId := by
  rw [lookupMapping, mappingsOf_addMapping, List.filter_append,
    filter_eq_nil_of_lookup_none st ty N hwf hl]
  simp [hkey]

theorem resolve_nil (nfkd : List Char → List Char) (env : StoreEnv) (st : Store)
    (ty : EntityType) (thr : Option ℚ) :
    resolveCanonical nfkd env st [] ty thr = .ok (none, st) := by
  rw [resolveCanonical, if_pos rfl]

theorem sim_ab_xyz : similarity "ab".data "xyz".data = some 0 := by
  rw [similarity, if_neg (by decide)]
  rw [show lev "ab".data "xyz".data = 3 from by decide]
  rw [show max "ab".data.length "xyz".data.length = 3 from by decide]
  norm_num

theorem sim_tacos_taco : similarity "tacos".data "taco".data = some (4/5) := by
  rw [similarity, if_neg (by decide)]
  rw [show lev "tacos".data "taco".data = 1 from by decide]
  rw [show max "tacos".data.length "taco".data.length = 5 from by decide]
  norm_num

theorem norm_tacos : normalizeCore (fun l => l) "tacos!".data = "tacos".data := by decide

theorem bestOf_xyz :
    bestOf "ab".data [⟨1, "xyz".data, some "xyz".data⟩] = .ok (none, 0) := by
  rw [bestOf_eq _ _ (by decide)]
  rw [bestFold, bestFold]
  rw [bestStep_score "ab".data (none, 0) ⟨1, "xyz".data, some "xyz".data⟩
    "xyz".data 0 rfl sim_ab_xyz]
  rw [if_neg (lt_irrefl (0 : ℚ))]

theorem bestOf_taco :
    bestOf "tacos".data [⟨1, "Taco".data, some "taco".data⟩] =
      .ok (some ⟨1, "Taco".data, some "taco".data⟩, 4/5) := by
  rw [bestOf_eq _ _ (by decide)]
  rw [bestFold, bestFold]
  rw [bestStep_score "tacos".data (none, 0) ⟨1, "Taco".data, some "taco".data⟩
    "taco".data (4/5) rfl sim_tacos_taco]
  rw [if_pos (by norm_num : (0 : ℚ) < 4/5)]

/-- Claim C7 counterexample: with a caller-supplied threshold of 0, a store
holding one canonical item `"xyz"` and raw name `"ab"` (fuzzy score exactly
0 ≥ 0), the code takes the creation path — no `"fuzzy"` mapping, a fresh id —
because `bestMatch` stays `null` under the strictly-greater update, even
though the maximum fuzzy score reaches the threshold. -/
theorem C7_counterexample :
    lookupMapping ⟨[], [], [⟨1, "xyz".data, some "xyz".data⟩], [], 5⟩ .item
        (normalizeCore (fun l => l) "ab".data) = none ∧
    similarity (normalizeCore (fun l => l) "ab".data) "xyz".data = some 0 ∧
    (0 : ℚ) ≤ 0 ∧
    resolveCanonical (fun l => l) ⟨false, false⟩
        ⟨[], [], [⟨1, "xyz".data, some "xyz".data⟩], [], 5⟩ "ab".data .item (some 0) =
      .ok (some 5,
        ⟨[⟨"ab".data, "ab".data, 5, "created", 1⟩], [],
         [⟨1, "xyz".data, some "xyz".data⟩, ⟨5, "ab".data, some "ab".data⟩], [], 6⟩) := by
  have hnab : normalizeCore (fun l => l) "ab".data = "ab".data := by decide
  refine ⟨by decide, by rw [hnab]; exact sim_ab_xyz, le_refl 0, ?_⟩
  have hb : bestOf (normalizeCore (fun l => l) "ab".data)
      (canonicalsOf ⟨[], [], [⟨1, "xyz".data, some "xyz".data⟩], [], 5⟩ .item) =
      .ok (none, 0) := by
    rw [hnab]
    exact bestOf_xyz
  have hrun := resolve_createNew (fun l => l) ⟨false, false⟩
    ⟨[], [], [⟨1, "xyz".data, some "xyz".data⟩], [], 5⟩ "ab".data .item (some 0) none 0
    (by decide) (by decide) hb (Or.inl rfl)
  rw [hrun, createNew_ok _ _ _ _ _ _ rfl]
  refine congrArg (fun s => (Except.ok (some 5, s) : Except ResolveErr (Option Nat × Store))) ?_
  decide

/-- Claim C7 (amended): whenever `resolveCanonical` finds no exact mapping,
the threshold is positive, and some existing canonical entity's fuzzy score
reaches the threshold (equality accepted, `>=` not `>`), the loop's best
candidate exists, its score is the maximum and at least the threshold, and
the resolver persists a NameMapping with method `"fuzzy"` and confidence
equal to that computed score and returns that candidate's canonical id.  (The
positivity requirement is what the counterexample forces: with a
non-positive threshold a maximum score of 0 reaches the threshold but the
strictly-greater tracking never selects a candidate.) -/
theorem C7_theorem (nfkd : List Char → List Char) (env : StoreEnv) (st : Store)
    (raw : List Char) (ty : EntityType) (thr : Option ℚ)
    (hraw : raw ≠ [])
    (hl : lookupMapping st ty (normalizeCore nfkd raw) = none)
    (hwf : ∀ e ∈ canonicalsOf st ty, e.normalizedName ≠ none)
    (hpos : 0 < thresholdOf ty thr)
    (hscore : ∃ e ∈ canonicalsOf st ty, ∃ nm sc, e.normalizedName = some nm ∧
      similarity (normalizeCore nfkd raw) nm = some sc ∧ thresholdOf ty thr ≤ sc)
    (henv : env.failMappingInsert = false) :
    ∃ best bs, bestFold (normalizeCore nfkd raw) (canonicalsOf st ty) (none, 0) =
        (some best, bs) ∧
      best ∈ canonicalsOf st ty ∧
      thresholdOf ty thr ≤ bs ∧
      (∃ nm, best.normalizedName = some nm ∧
        similarity (normalizeCore nfkd raw) nm = some bs) ∧
      resolveCanonical nfkd env st raw ty thr =
        .ok (some best.id,
          addMapping st ty ⟨raw, normalizeCore nfkd raw, best.id, "fuzzy", bs⟩) := by
  obtain ⟨e0, hmem0, nm0, sc0, hnm0, hsim0, hth0⟩ := hscore
  have hge : sc0 ≤ (bestFold (normalizeCore nfkd raw) (canonicalsOf st ty) (none, 0)).2 :=
    bestFold_ge _ _ _ e0 nm0 sc0 hmem0 hnm0 hsim0
  have hbs_pos : 0 < (bestFold (normalizeCore nfkd raw) (canonicalsOf st ty) (none, 0)).2 :=
    lt_of_lt_of_le hpos (le_trans hth0 hge)
  rcases bestFold_cases (normalizeCore nfkd raw) (canonicalsOf st ty) (none, 0) with
    hcase | ⟨best, hmem, nm, bs, hnm, hsim, heq⟩
  · rw [hcase] at hbs_pos
    exact absurd hbs_pos (by norm_num)
  · have hbs2 : (bestFold (normalizeCore nfkd raw) (canonicalsOf st ty) (none, 0)).2 = bs := by
      rw [heq]
    have hth : thresholdOf ty thr ≤ bs := hbs2 ▸ le_trans hth0 hge
    refine ⟨best, bs, heq, hmem, hth, ⟨nm, hnm, hsim⟩, ?_⟩
    have hres := resolve_fuzzy nfkd env st raw ty thr best bs hraw hl
      (by rw [bestOf_eq _ _ hwf, heq]) hth
    rw [hres, henv]
    simp

/-- Witness for C7: raw name `"tacos!"` against a store holding canonical
item `"Taco"`; the fuzzy score is exactly 0.8, equal to the default item
threshold, and the resolver persists a fuzzy mapping with confidence 0.8 and
returns id 1. -/
theorem C7_witness :
    ∃ best bs,
      bestFold (normalizeCore (fun l => l) "tacos!".data)
        (canonicalsOf ⟨[], [], [⟨1, "Taco".data, some "taco".data⟩], [], 2⟩ .item)
        (none, 0) = (some best, bs) ∧
      best ∈ canonicalsOf ⟨[], [], [⟨1, "Taco".data, some "taco".data⟩], [], 2⟩ .item ∧
      thresholdOf .item none ≤ bs ∧
      (∃ nm, best.normalizedName = some nm ∧
        similarity (normalizeCore (fun l => l) "tacos!".data) nm = some bs) ∧
      resolveCanonical (fun l => l) ⟨false, false⟩
          ⟨[], [], [⟨1, "Taco".data, some "taco".data⟩], [], 2⟩ "tacos!".data .item none =
        .ok (some best.id,
          addMapping ⟨[], [], [⟨1, "Taco".data, some "taco".data⟩], [], 2⟩ .item
            ⟨"tacos!".data, normalizeCore (fun l => l) "tacos!".data, best.id, "fuzzy", bs⟩) :=
  C7_theorem (fun l => l) ⟨false, false⟩
    ⟨[], [], [⟨1, "Taco".data, some "taco".data⟩], [], 2⟩ "tacos!".data .item none
    (by decide) (by decide) (by decide)
    (by rw [show thresholdOf .item none = 4/5 from rfl]; norm_num)
    ⟨⟨1, "Taco".data, some "taco".data⟩, by decide, "taco".data, 4/5, rfl,
      by rw [norm_tacos]; exact sim_tacos_taco,
      by rw [show thresholdOf .item none = 4/5 from rfl]⟩
    rfl

/-- Claim C8: under a working store whose mapping tables satisfy their key-
uniqueness constraint, re-resolving the same raw name (same type, same
threshold) after a completed first resolution returns the same result with
the store completely unchanged — in particular no second CanonicalEntity row
is created, so one canonical entity per distinct normalized string is
preserved. -/
theorem C8_theorem (nfkd : List Char → List Char) (st : Store) (raw : List Char)
    (ty : EntityType) (thr : Option ℚ) (res : Option Nat) (st2 : Store)
    (hwf : (mappingsOf st ty).Pairwise
      (fun m1 m2 => m1.normalizedRawName ≠ m2.normalizedRawName))
    (h1 : resolveCanonical nfkd ⟨false, false⟩ st raw ty thr = .ok (res, st2)) :
    resolveCanonical nfkd ⟨false, false⟩ st2 raw ty thr = .ok (res, st2) := by
  by_cases hraw : raw = []
  · subst hraw
    rw [resolve_nil] at h1
    simp only [Except.ok.injEq, Prod.mk.injEq] at h1
    obtain ⟨h1a, h1b⟩ := h1
    rw [resolve_nil, ← h1a, ← h1b]
  · rcases hl : lookupMapping st ty (normalizeCore nfkd raw) with _ | cid
    · rcases hb : bestOf (normalizeCore nfkd raw) (canonicalsOf st ty) with err | ⟨bm, bs⟩
      · rw [resolveCanonical, if_neg hraw] at h1
        simp only [hl, hb] at h1
        exact absurd h1 (by simp)
      · rcases bm with _ | best
        · -- creation path
          have hrun := resolve_createNew nfkd ⟨false, false⟩ st raw ty thr none bs hraw hl hb
            (Or.inl rfl)
          rw [createNew_ok _ _ _ _ _ _ rfl] at hrun
          rw [hrun] at h1
          simp only [Except.ok.injEq, Prod.mk.injEq] at h1
          obtain ⟨h1a, h1b⟩ := h1
          have hlook2 : lookupMapping st2 ty (normalizeCore nfkd raw) = some st.nextId := by
            rw [← h1b]
            rw [createdState]
            simp only [if_neg (by exact Bool.false_ne_true)]
            have hstep : lookupMapping
                (addMapping { addCanonical st ty
                    (newEntity nfkd st raw ty (normalizeCore nfkd raw)) with
                  nextId := st.nextId + 1 } ty
                  ⟨raw, normalizeCore nfkd raw,
                    (newEntity nfkd st raw ty (normalizeCore nfkd raw)).id, "created", 1⟩)
                ty (normalizeCore nfkd raw) =
                some (newEntity nfkd st raw ty (normalizeCore nfkd raw)).id := by
              apply lookup_after_insert
              · rw [mappingsOf_nextId, mappingsOf_addCanonical]
                exact hwf
              · rw [lookupMapping, mappingsOf_nextId, mappingsOf_addCanonical]
                rw [lookupMapping] at hl
                exact hl
              · rfl
            rw [hstep]
            rfl
          rw [resolve_exact nfkd ⟨false, false⟩ st2 raw ty thr st.nextId hraw hlook2, h1a]
        · by_cases hth : thresholdOf ty thr ≤ bs
          · -- fuzzy path
            have hrun := resolve_fuzzy nfkd ⟨false, false⟩ st raw ty thr best bs hraw hl hb hth
            simp only [if_neg (by exact Bool.false_ne_true)] at hrun
            rw [hrun] at h1
            simp only [Except.ok.injEq, Prod.mk.injEq] at h1
            obtain ⟨h1a, h1b⟩ := h1
            have hlook2 : lookupMapping st2 ty (normalizeCore nfkd raw) = some best.id := by
              rw [← h1b]
              exact lookup_after_insert st ty _ _ hwf hl rfl
            rw [resolve_exact nfkd ⟨false, false⟩ st2 raw ty thr best.id hraw hlook2, h1a]
          · -- creation path via low score
            have hrun := resolve_createNew nfkd ⟨false, false⟩ st raw ty thr (some best) bs
              hraw hl hb (Or.inr (not_le.mp hth))
            rw [createNew_ok _ _ _ _ _ _ rfl] at hrun
            rw [hrun] at h1
            simp only [Except.ok.injEq, Prod.mk.injEq] at h1
            obtain ⟨h1a, h1b⟩ := h1
            have hlook2 : lookupMapping st2 ty (normalizeCore nfkd raw) = some st.nextId := by
              rw [← h1b]
              rw [createdState]
              simp only [if_neg (by exact Bool.false_ne_true)]
              have hstep : lookupMapping
                  (addMapping { addCanonical st ty
                      (newEntity nfkd st raw ty (normalizeCore nfkd raw)) with
                    nextId := st.nextId + 1 } ty
                    ⟨raw, normalizeCore nfkd raw,
                      (newEntity nfkd st raw ty (normalizeCore nfkd raw)).id, "created", 1⟩)
                  ty (normalizeCore nfkd raw) =
                  some (newEntity nfkd st raw ty (normalizeCore nfkd raw)).id := by
                apply lookup_after_insert
                · rw [mappingsOf_nextId, mappingsOf_addCanonical]
                  exact hwf
                · rw [lookupMapping, mappingsOf_nextId, mappingsOf_addCanonical]
                  rw [lookupMapping] at hl
                  exact hl
                · rfl
              rw [hstep]
              rfl
            rw [resolve_exact nfkd ⟨false, false⟩ st2 raw ty thr st.nextId hraw hlook2, h1a]
    · -- exact path: the first call already left the store untouched
      have hrun := resolve_exact nfkd ⟨false, false⟩ st raw ty thr cid hraw hl
      rw [hrun] at h1
      simp only [Except.ok.injEq, Prod.mk.injEq] at h1
      obtain ⟨h1a, h1b⟩ := h1
      subst h1b
      rw [hrun, h1a]

/-- Witness for C8: resolving `"latte"` against the store produced by its own
first resolution returns the same id 1 and leaves that store unchanged. -/
theorem C8_witness :
    resolveCanonical (fun l => l) ⟨false, false⟩
        ⟨[⟨"latte".data, "latte".data, 1, "created", 1⟩], [],
         [⟨1, "latte".data, some "latte".data⟩], [], 2⟩ "latte".data .item none =
      .ok (some 1,
        ⟨[⟨"latte".data, "latte".data, 1, "created", 1⟩], [],
         [⟨1, "latte".data, some "latte".data⟩], [], 2⟩) :=
  C8_theorem (fun l => l) ⟨[], [], [], [], 1⟩ "latte".data .item none (some 1)
    ⟨[⟨"latte".data, "latte".data, 1, "created", 1⟩], [],
     [⟨1, "latte".data, some "latte".data⟩], [], 2⟩
    (by decide)
    (by
      have hrun := resolve_createNew (fun l => l) ⟨false, false⟩ ⟨[], [], [], [], 1⟩
        "latte".data .item none none 0 (by decide) (by decide) rfl (Or.inl rfl)
      rw [hrun, createNew_ok _ _ _ _ _ _ rfl]
      refine congrArg
        (fun s => (Except.ok (some 1, s) : Except ResolveErr (Option Nat × Store))) ?_
      decide)

/-- Claim C10: a store error while inserting the new CanonicalEntity is
rethrown to the caller, while a store error on the audit NameMapping insert
is ignored — the matched or created canonical id is still returned (in the
creation case with only the canonical row added to the store). -/
theorem C10_theorem :
    (∀ (nfkd : List Char → List Char) (env : StoreEnv) (st : Store) (raw : List Char)
       (ty : EntityType) (thr : Option ℚ) (bm : Option CanonicalEntity) (bs : ℚ),
      raw ≠ [] →
      lookupMapping st ty (normalizeCore nfkd raw) = none →
      bestOf (normalizeCore nfkd raw) (canonicalsOf st ty) = .ok (bm, bs) →
      (bm = none ∨ bs < thresholdOf ty thr) →
      env.failCanonicalInsert = true →
      resolveCanonical nfkd env st raw ty thr = .error .storeError) ∧
    (∀ (nfkd : List Char → List Char) (env : StoreEnv) (st : Store) (raw : List Char)
       (ty : EntityType) (thr : Option ℚ) (best : CanonicalEntity) (bs : ℚ),
      raw ≠ [] →
      lookupMapping st ty (normalizeCore nfkd raw) = none →
      bestOf (normalizeCore nfkd raw) (canonicalsOf st ty) = .ok (some best, bs) →
      thresholdOf ty thr ≤ bs →
      env.failMappingInsert = true →
      resolveCanonical nfkd env st raw ty thr = .ok (some best.id, st)) ∧
    (∀ (nfkd : List Char → List Char) (st : Store) (raw : List Char)
       (ty : EntityType) (thr : Option ℚ) (bm : Option CanonicalEntity) (bs : ℚ),
      raw ≠ [] →
      lookupMapping st ty (normalizeCore nfkd raw) = none →
      bestOf (normalizeCore nfkd raw) (canonicalsOf st ty) = .ok (bm, bs) →
      (bm = none ∨ bs < thresholdOf ty thr) →
      resolveCanonical nfkd ⟨false, true⟩ st raw ty thr =
        .ok (some st.nextId,
          { addCanonical st ty (newEntity nfkd st raw ty (normalizeCore nfkd raw)) with
            nextId := st.nextId + 1 })) := by
  refine ⟨?_, ?_, ?_⟩
  · intro nfkd env st raw ty thr bm bs hraw hl hb hcr hins
    rw [resolve_createNew nfkd env st raw ty thr bm bs hraw hl hb hcr]
    exact createNew_err nfkd env st raw ty _ hins
  · intro nfkd env st raw ty thr best bs hraw hl hb hth henv
    rw [resolve_fuzzy nfkd env st raw ty thr best bs hraw hl hb hth, henv]
    simp
  · intro nfkd st raw ty thr bm bs hraw hl hb hcr
    rw [resolve_createNew nfkd ⟨false, true⟩ st raw ty thr bm bs hraw hl hb hcr]
    rw [createNew_ok _ _ _ _ _ _ rfl]
    rw [createdState]
    simp only [if_pos]

/-- Witness for C10: the three failure behaviours at concrete inputs — a
failing canonical insert aborts the resolution of `"ab"`, a failing mapping
insert still returns the fuzzy-matched id 1 for `"tacos!"` with the store
unchanged, and a failing mapping insert after a successful creation still
returns the fresh id 1 for `"latte"` with only the canonical row added. -/
theorem C10_witness :
    resolveCanonical (fun l => l) ⟨true, false⟩ ⟨[], [], [], [], 1⟩ "ab".data .item none =
      .error .storeError ∧
    resolveCanonical (fun l => l) ⟨false, true⟩
        ⟨[], [], [⟨1, "Taco".data, some "taco".data⟩], [], 2⟩ "tacos!".data .item none =
      .ok (some 1, ⟨[], [], [⟨1, "Taco".data, some "taco".data⟩], [], 2⟩) ∧
    resolveCanonical (fun l => l) ⟨false, true⟩ ⟨[], [], [], [], 1⟩ "latte".data .item none =
      .ok (some 1, ⟨[], [], [⟨1, "latte".data, some "latte".data⟩], [], 2⟩) := by
  refine ⟨?_, ?_, ?_⟩
  · exact C10_theorem.1 (fun l => l) ⟨true, false⟩ ⟨[], [], [], [], 1⟩ "ab".data .item none
      none 0 (by decide) (by decide) rfl (Or.inl rfl) rfl
  · have hb : bestOf (normalizeCore (fun l => l) "tacos!".data)
        (canonicalsOf ⟨[], [], [⟨1, "Taco".data, some "taco".data⟩], [], 2⟩ .item) =
        .ok (some ⟨1, "Taco".data, some "taco".data⟩, 4/5) := by
      rw [norm_tacos]
      exact bestOf_taco
    exact C10_theorem.2.1 (fun l => l) ⟨false, true⟩
      ⟨[], [], [⟨1, "Taco".data, some "taco".data⟩], [], 2⟩ "tacos!".data .item none
      ⟨1, "Taco".data, some "taco".data⟩ (4/5) (by decide) (by decide) hb
      (by rw [show thresholdOf .item none = 4/5 from rfl]) rfl
  · have h := C10_theorem.2.2 (fun l => l) ⟨[], [], [], [], 1⟩ "latte".data .item none
      none 0 (by decide) (by decide) rfl (Or.inl rfl)
    rw [h]
    refine congrArg
      (fun s => (Except.ok (some 1, s) : Except ResolveErr (Option Nat × Store))) ?_
    decide

end Clave
